import Mathlib

/-!
Verification of the LBVH core header (`bvh_binary.h`).

Shallow embedding conventions:
* IEEE-754 single-precision values are modelled by the extended type
  `EFloat`, carrying NaN, the two infinities, and finite values as the
  exact rationals they denote.  The arithmetic operations `sub`, `mul`
  and `div` round their exact rational result onto the single-precision
  value set with `roundFin`: round to nearest, ties to even, the subnormal
  grid `2^-149` below `2^-126`, underflow to zero, and overflow to the
  signed infinity at a rounded magnitude of `2^128` or more.  The IEEE
  special-value rules (NaN propagation, `x/0`, `0*inf`, `inf-inf`) are
  reproduced literally.  Comparisons are exact.
* The raw 32-bit pattern of a float is modelled as a `Nat`; `sval` gives
  the exact numeric value of a (non-NaN, non-infinite) pattern.
* The atomic compare-exchange retry loops of `update_min`/`update_max` are
  modelled over an interference trace with explicit fuel
  (`casMinLoop`/`casMaxLoop`), with the `compare_exchange_weak` primitive
  allowed to fail spuriously: a spurious-failure oracle says which
  attempts fail even though the slot holds the expected value.
-/

namespace BVH

/-- Round a rational to the nearest integer, ties to even. -/
def rndZ (q : ℚ) : ℤ :=
  if q - ⌊q⌋ < 1 / 2 then ⌊q⌋
  else if 1 / 2 < q - ⌊q⌋ then ⌊q⌋ + 1
  else if 2 ∣ ⌊q⌋ then ⌊q⌋ else ⌊q⌋ + 1

/-- Model of an IEEE-754 single-precision value: NaN, the two infinities,
or a finite value represented by the exact rational it denotes. -/
inductive EFloat : Type
  | nan : EFloat
  | neg_inf : EFloat
  | pos_inf : EFloat
  | fin : ℚ → EFloat
deriving DecidableEq

namespace EFloat

/-- IEEE `<` comparison: any comparison with NaN is false. -/
def blt : EFloat → EFloat → Bool
  | nan, _ => false
  | _, nan => false
  | neg_inf, neg_inf => false
  | neg_inf, _ => true
  | pos_inf, _ => false
  | fin _, neg_inf => false
  | fin _, pos_inf => true
  | fin q, fin r => decide (q < r)

/-- IEEE `<=` comparison: any comparison with NaN is false. -/
def ble : EFloat → EFloat → Bool
  | nan, _ => false
  | _, nan => false
  | neg_inf, _ => true
  | pos_inf, pos_inf => true
  | pos_inf, _ => false
  | fin _, neg_inf => false
  | fin _, pos_inf => true
  | fin q, fin r => decide (q ≤ r)

/-- IEEE negation (exact). -/
def negE : EFloat → EFloat
  | nan => nan
  | neg_inf => pos_inf
  | pos_inf => neg_inf
  | fin q => fin (-q)

/-- Round a non-negative rational onto the IEEE-754 single-precision value
set, to nearest with ties to even: the grid exponent is
`max (log2 a) (-126)` (the normal range, or the fixed subnormal grid
`2^-149` below it), the scaled mantissa is rounded ties-to-even, and a
rounded magnitude of `2^128` or more overflows to infinity. -/
def roundPos (a : ℚ) : EFloat :=
  let e : ℤ := max (Int.log 2 a) (-126)
  let v : ℚ := (rndZ (a / 2 ^ (e - 23)) : ℚ) * 2 ^ (e - 23)
  if (2:ℚ) ^ (128:ℤ) ≤ v then pos_inf else fin v

/-- Round a rational to the nearest IEEE-754 single-precision value
(ties to even, underflow to zero, overflow to the signed infinity). -/
def roundFin (q : ℚ) : EFloat :=
  if q < 0 then negE (roundPos (-q)) else roundPos q

/-- IEEE subtraction: special values as in the standard
(`inf - inf = NaN`), the finite case computed exactly and rounded. -/
def sub : EFloat → EFloat → EFloat
  | nan, _ => nan
  | _, nan => nan
  | neg_inf, neg_inf => nan
  | neg_inf, _ => neg_inf
  | pos_inf, pos_inf => nan
  | pos_inf, _ => pos_inf
  | fin _, neg_inf => pos_inf
  | fin _, pos_inf => neg_inf
  | fin q, fin r => roundFin (q - r)

/-- IEEE multiplication: special values as in the standard
(`0 * inf = NaN`, sign rules), the finite case computed exactly and
rounded. -/
def mul : EFloat → EFloat → EFloat
  | nan, _ => nan
  | _, nan => nan
  | neg_inf, neg_inf => pos_inf
  | neg_inf, pos_inf => neg_inf
  | pos_inf, neg_inf => neg_inf
  | pos_inf, pos_inf => pos_inf
  | neg_inf, fin q => if q = 0 then nan else if 0 < q then neg_inf else pos_inf
  | pos_inf, fin q => if q = 0 then nan else if 0 < q then pos_inf else neg_inf
  | fin q, neg_inf => if q = 0 then nan else if 0 < q then neg_inf else pos_inf
  | fin q, pos_inf => if q = 0 then nan else if 0 < q then pos_inf else neg_inf
  | fin q, fin r => roundFin (q * r)

/-- IEEE division: division of a non-zero finite value by (positive) zero
yields a signed infinity, `0/0` and `inf/inf` yield NaN, and the finite
case with a non-zero divisor is computed exactly and rounded.  The
rational zero models IEEE `+0`. -/
def div : EFloat → EFloat → EFloat
  | nan, _ => nan
  | _, nan => nan
  | neg_inf, neg_inf => nan
  | neg_inf, pos_inf => nan
  | pos_inf, neg_inf => nan
  | pos_inf, pos_inf => nan
  | neg_inf, fin q => if 0 ≤ q then neg_inf else pos_inf
  | pos_inf, fin q => if 0 ≤ q then pos_inf else neg_inf
  | fin _, neg_inf => fin 0
  | fin _, pos_inf => fin 0
  | fin q, fin r =>
      if r = 0 then (if q = 0 then nan else if 0 < q then pos_inf else neg_inf)
      else roundFin (q / r)

/-- Whether the value is finite (neither NaN nor an infinity). -/
def isFinite : EFloat → Bool
  | fin _ => true
  | _ => false

end EFloat

/-- Scalar `glm::min(x, y) = (y < x) ? y : x` (the `std::min` convention). -/
def glmMin (x y : EFloat) : EFloat := if EFloat.blt y x then y else x

/-- Scalar `glm::max(x, y) = (x < y) ? y : x` (the `std::max` convention). -/
def glmMax (x y : EFloat) : EFloat := if EFloat.blt x y then y else x

/-- A `glm::vec3` whose components are exact float values. -/
structure Vec3 where
  x : EFloat
  y : EFloat
  z : EFloat
deriving DecidableEq

/-- Component-wise `glm::min` on vectors. -/
def vMin (a b : Vec3) : Vec3 := ⟨glmMin a.x b.x, glmMin a.y b.y, glmMin a.z b.z⟩

/-- Component-wise `glm::max` on vectors. -/
def vMax (a b : Vec3) : Vec3 := ⟨glmMax a.x b.x, glmMax a.y b.y, glmMax a.z b.z⟩

/-- Component-wise vector subtraction `a - b`. -/
def vSub (a b : Vec3) : Vec3 :=
  ⟨EFloat.sub a.x b.x, EFloat.sub a.y b.y, EFloat.sub a.z b.z⟩

/-- Component-wise vector division `a / b`. -/
def vDiv (a b : Vec3) : Vec3 :=
  ⟨EFloat.div a.x b.x, EFloat.div a.y b.y, EFloat.div a.z b.z⟩

/-- The exact rational value of FLT_MAX, `(2^24 - 1) * 2^104`, written as a
plain numeral. -/
def fltMax : ℚ := 340282346638528859811704183484516925440

/-- The header constant `maximum = std::numeric_limits<float>::max()`,
i.e. FLT_MAX. -/
def maximum : EFloat := .fin fltMax

/-- The header constant `minimum = std::numeric_limits<float>::lowest()`,
i.e. `-FLT_MAX`. -/
def minimum : EFloat := .fin (-fltMax)

/-- The header constant `invalid = std::numeric_limits<uint32_t>::max()`. -/
def invalid : Nat := 2 ^ 32 - 1

/-- The struct `MiniRay`.  In the source, `Inverse` is declared
`static thread_local glm::vec3` — a single per-thread variable shared by
every `MiniRay` in that thread, not a field of the instance.  The embedding
therefore keeps only the true per-instance fields here and passes the
thread's current `Inverse` value to `Intersect` explicitly. -/
structure MiniRay where
  Position : Vec3
  Direction : Vec3
deriving DecidableEq

/-- The value-level view of `struct AABB` (the `glm::vec3 Min / Max` arm of
the union). -/
structure AABB where
  Min : Vec3
  Max : Vec3
deriving DecidableEq

namespace AABB

/-- Source `AABB::Initialize()`: `Min = glm::vec3(maximum); Max = glm::vec3(minimum)`. -/
def Initialize : AABB :=
  ⟨⟨maximum, maximum, maximum⟩, ⟨minimum, minimum, minimum⟩⟩

/-- Source `AABB::Expand(const glm::vec3 &p)`:
`Min = glm::min(p, Min); Max = glm::max(p, Max)`. -/
def Expand (b : AABB) (p : Vec3) : AABB :=
  ⟨vMin p b.Min, vMax p b.Max⟩

/-- Source `AABB::Nomalize(const glm::vec3 &p)`: `(p - Min) / (Max - Min)`,
with no guard on the denominator. -/
def Nomalize (b : AABB) (p : Vec3) : Vec3 :=
  vDiv (vSub p b.Min) (vSub b.Max b.Min)

/-- The value the source stores into `min` in `AABB::Intersect`
(lines computing `x`, `y`, `z` from the near faces and then
`min = glm::max(z, glm::max(x, y))`).  `pos` is `ray.Position` and `inv`
the thread's current `MiniRay::Inverse`. -/
def tNear (b : AABB) (pos inv : Vec3) : EFloat :=
  let x := EFloat.mul (EFloat.sub (if EFloat.blt (.fin 0) inv.x then b.Min.x else b.Max.x) pos.x) inv.x
  let y := EFloat.mul (EFloat.sub (if EFloat.blt (.fin 0) inv.y then b.Min.y else b.Max.y) pos.y) inv.y
  let z := EFloat.mul (EFloat.sub (if EFloat.blt (.fin 0) inv.z then b.Min.z else b.Max.z) pos.z) inv.z
  glmMax z (glmMax x y)

/-- The value the source stores into `max` in `AABB::Intersect`
(the recomputed `x`, `y`, `z` from the far faces and then
`max = glm::min(z, glm::min(x, y))`). -/
def tFar (b : AABB) (pos inv : Vec3) : EFloat :=
  let x := EFloat.mul (EFloat.sub (if EFloat.blt (.fin 0) inv.x then b.Max.x else b.Min.x) pos.x) inv.x
  let y := EFloat.mul (EFloat.sub (if EFloat.blt (.fin 0) inv.y then b.Max.y else b.Min.y) pos.y) inv.y
  let z := EFloat.mul (EFloat.sub (if EFloat.blt (.fin 0) inv.z then b.Max.z else b.Min.z) pos.z) inv.z
  glmMin z (glmMin x y)

/-- Source `AABB::Intersect(const MiniRay &ray, float &min, const float length)`.
The C++ out-parameter `min` becomes the first component of the returned
pair (it is written before the return expression, unconditionally); the
second component is the returned boolean
`(min <= max) && (0.0f < max) && (min < length)`.  The source reads
`ray.Inverse`, which is the `static thread_local` variable; the embedding
receives that thread-shared value as the explicit argument `inv`. -/
def Intersect (b : AABB) (ray : MiniRay) (inv : Vec3) (length : EFloat) :
    EFloat × Bool :=
  let m := tNear b ray.Position inv
  let M := tFar b ray.Position inv
  (m, EFloat.ble m M && EFloat.blt (.fin 0) M && EFloat.blt m length)

end AABB

/-! Spec-side restatement of the slab test, written from the words of the
specification ("For each axis, compute the near and far plane crossing
distances using the ray's precomputed reciprocal direction, taking the
min-face when the reciprocal direction is positive and the max-face
otherwise … Result is `tNear <= tFar && tFar > 0 && tNear < maxLength`;
`outMin` receives `tNear`"), for comparison with `AABB.Intersect`. -/

/-- Crossing distance, along one axis, to the near plane: the min-face when
the reciprocal direction is positive, the max-face otherwise. -/
def specAxisNear (mn mx pos inv : EFloat) : EFloat :=
  EFloat.mul (EFloat.sub (if EFloat.blt (.fin 0) inv then mn else mx) pos) inv

/-- Crossing distance, along one axis, to the far plane: the opposite face. -/
def specAxisFar (mn mx pos inv : EFloat) : EFloat :=
  EFloat.mul (EFloat.sub (if EFloat.blt (.fin 0) inv then mx else mn) pos) inv

/-- Spec `tNear`: maximum over the three axes of the near crossing distances. -/
def specTNear (b : AABB) (pos inv : Vec3) : EFloat :=
  glmMax (specAxisNear b.Min.z b.Max.z pos.z inv.z)
    (glmMax (specAxisNear b.Min.x b.Max.x pos.x inv.x)
      (specAxisNear b.Min.y b.Max.y pos.y inv.y))

/-- Spec `tFar`: minimum over the three axes of the far crossing distances. -/
def specTFar (b : AABB) (pos inv : Vec3) : EFloat :=
  glmMin (specAxisFar b.Min.z b.Max.z pos.z inv.z)
    (glmMin (specAxisFar b.Min.x b.Max.x pos.x inv.x)
      (specAxisFar b.Min.y b.Max.y pos.y inv.y))

/-- Spec-side slab test: `outMin` receives `tNear` unconditionally, and the
result is `tNear <= tFar && tFar > 0 && tNear < maxLength`. -/
def specIntersect (b : AABB) (ray : MiniRay) (inv : Vec3) (length : EFloat) :
    EFloat × Bool :=
  (specTNear b ray.Position inv,
    EFloat.ble (specTNear b ray.Position inv) (specTFar b ray.Position inv) &&
      EFloat.blt (.fin 0) (specTFar b ray.Position inv) &&
      EFloat.blt (specTNear b ray.Position inv) length)

/-! The raw 32-bit view of a float, as produced by `to_uint` (a `memcpy` of
the IEEE-754 single-precision representation).  A pattern `b < 2^32` splits
into sign `b / 2^31`, biased exponent `b / 2^23 % 2^8` and mantissa
`b % 2^23`. -/

/-- Scaled magnitude of a non-negative bit pattern: `2^150` times the exact
numeric value of the pattern (subnormals use exponent `1` without the
implicit leading bit, which the `max e 1` formulation captures).  Defined on
all of `Nat` by the same formula so that strict monotonicity is global. -/
def patVal (b : Nat) : Nat :=
  (b % 2 ^ 23 + if b / 2 ^ 23 = 0 then 0 else 2 ^ 23) * 2 ^ max (b / 2 ^ 23) 1

/-- Exact numeric value of a (non-NaN, non-infinite) 32-bit float pattern:
patterns with the sign bit clear denote `patVal b / 2^150`, patterns with
the sign bit set denote the negated magnitude. -/
def sval (b : Nat) : ℚ :=
  if b < 2 ^ 31 then (patVal b : ℚ) / 2 ^ 150
  else -((patVal (b - 2 ^ 31) : ℚ) / 2 ^ 150)

/-- Classify a 32-bit pattern as the `EFloat` it denotes. -/
def toEFloat (b : Nat) : EFloat :=
  if b / 2 ^ 23 % 2 ^ 8 = 255 then
    (if b % 2 ^ 23 = 0 then (if b < 2 ^ 31 then .pos_inf else .neg_inf) else .nan)
  else .fin (sval b)

/-- Sequential denotation of `AABB::update_min`: the retry loop, run without
interference, stores `value` exactly when `old_value > value` (the first
compare-exchange then succeeds) and otherwise leaves the slot unchanged. -/
def update_min (stored value : Nat) : Nat :=
  if value < stored then value else stored

/-- Sequential denotation of `AABB::update_max`: stores `value` exactly when
`old_value < value`, otherwise leaves the slot unchanged. -/
def update_max (stored value : Nat) : Nat :=
  if stored < value then value else stored

/-- Three 32-bit slots, the `std::atomic<uint32_t> AtomicMin[3]` /
`AtomicMax[3]` arm of the union in `struct AABB`. -/
structure UVec3 where
  x : Nat
  y : Nat
  z : Nat
deriving DecidableEq

/-- The bit-pattern view of `struct AABB` used by the atomic operations. -/
structure AtomicAABB where
  AtomicMin : UVec3
  AtomicMax : UVec3
deriving DecidableEq

/-- Source `AABB::Expand(const AABB &box)`: for each component,
`update_min(AtomicMin[i], box.AtomicMin[i])` and
`update_max(AtomicMax[i], box.AtomicMax[i])` (sequential denotation). -/
def AtomicAABB.Expand (a b : AtomicAABB) : AtomicAABB :=
  ⟨⟨update_min a.AtomicMin.x b.AtomicMin.x,
    update_min a.AtomicMin.y b.AtomicMin.y,
    update_min a.AtomicMin.z b.AtomicMin.z⟩,
   ⟨update_max a.AtomicMax.x b.AtomicMax.x,
    update_max a.AtomicMax.y b.AtomicMax.y,
    update_max a.AtomicMax.z b.AtomicMax.z⟩⟩

/-- The bit pattern `to_uint(maximum)` of FLT_MAX: sign 0, exponent 254,
mantissa all ones. -/
def uintMaximum : Nat := 0x7F7FFFFF

/-- Source `struct Node`: a box in its atomic bit-pattern view and two child
indices. -/
structure Node where
  Box : AtomicAABB
  L : Nat
  R : Nat
deriving DecidableEq

/-- The default constructor `Node()`: `L = R = invalid`, every
`Box.AtomicMax[i] = 0`, every `Box.AtomicMin[i] = to_uint(maximum)`. -/
def Node.new : Node :=
  ⟨⟨⟨uintMaximum, uintMaximum, uintMaximum⟩, ⟨0, 0, 0⟩⟩, invalid, invalid⟩

/-! Morton encoding.  The coordinate pipeline
`std::min(std::max(x * 1024.0f, 0.0f), 1023.0f)` followed by the cast
`(uint32_t)` is exact in IEEE-754 arithmetic (multiplication by the power
of two 1024 never rounds, comparisons are exact, and truncation of a value
in `[0, 1023]` is the floor), so a float coordinate is modelled by the
exact rational it denotes. -/

/-- Source `LBVH::expandBits`: the multiply-and-mask sequence on a 32-bit unsigned
integer (each multiplication is reduced modulo `2^32`). -/
def expandBits (v : Nat) : Nat :=
  let v1 := Nat.land (v * 0x00010001 % 2 ^ 32) 0xFF0000FF
  let v2 := Nat.land (v1 * 0x00000101 % 2 ^ 32) 0x0F00F00F
  let v3 := Nat.land (v2 * 0x00000011 % 2 ^ 32) 0xC30C30C3
  Nat.land (v3 * 0x00000005 % 2 ^ 32) 0x49249249

/-- The clamped, truncated cell index of one coordinate:
`(uint32_t)std::min(std::max(x * 1024.0f, 0.0f), 1023.0f)`. -/
def toCell (x : ℚ) : Nat := (⌊min (max (x * 1024) 0) 1023⌋).toNat

/-- Source `LBVH::morton3D`: clamp and truncate each coordinate, expand, and
combine as `xx * 4 + yy * 2 + zz`. -/
def morton3D (x y z : ℚ) : Nat :=
  expandBits (toCell x) * 4 + expandBits (toCell y) * 2 + expandBits (toCell z)

/-- Reference bit expansion from the claim: bit `i` of the source lands at
bit `3 * i` with two zero bits after each source bit. -/
def refExpandBits (v : Nat) : Nat :=
  Finset.sum (Finset.range 10) fun i => v / 2 ^ i % 2 * 2 ^ (3 * i)

/-- Reference Morton encoding from the claim: scale by 1024, clamp to
`[0, 1023]`, truncate to a 10-bit integer, expand each bit to position
`3 * i`, and combine the three masks as `xx * 4 + yy * 2 + zz`. -/
def refMorton3D (x y z : ℚ) : Nat :=
  refExpandBits (toCell x) * 4 + refExpandBits (toCell y) * 2 + refExpandBits (toCell z)

/-! Interference-trace model of the retry loops in `update_min` /
`update_max`.  The stream `f` gives the value held by the atomic slot at
each successive observation: `f 0` is the initial load into `old_value`,
and `f i` (for `i ≥ 1`) is the value the `i`-th compare-exchange attempt
finds in the slot.  The C++ primitive is `compare_exchange_weak`: an
attempt succeeds when the slot holds the expected value AND the attempt
does not fail spuriously — the oracle `sp` marks the attempts that fail
spuriously even though the slot matches.  On every failure, genuine or
spurious, the current slot value is loaded into `old_value` (the C++
primitive updates its `expected` argument on failure).  The loop returns
the value held by the slot when it exits; `fuel` bounds the number of
iterations and `none` marks fuel exhaustion. -/
def casMinLoop (value : Nat) : Nat → Nat → (Nat → Nat) → (Nat → Bool) → Nat → Option Nat
  | 0, _, _, _, _ => none
  | fuel + 1, old, f, sp, i =>
    if old ≤ value then some (f i)
    else if f i = old ∧ sp i = false then some value
    else casMinLoop value fuel (f i) f sp (i + 1)

/-- The `update_max` retry loop over an interference trace; see
`casMinLoop`. -/
def casMaxLoop (value : Nat) : Nat → Nat → (Nat → Nat) → (Nat → Bool) → Nat → Option Nat
  | 0, _, _, _, _ => none
  | fuel + 1, old, f, sp, i =>
    if value ≤ old then some (f i)
    else if f i = old ∧ sp i = false then some value
    else casMaxLoop value fuel (f i) f sp (i + 1)

/-- One run of the `update_min` loop with the given fuel: initial load
`f 0`, first CAS attempt observes `f 1`. -/
def update_min_run (f : Nat → Nat) (sp : Nat → Bool) (value fuel : Nat) :
    Option Nat :=
  casMinLoop value fuel (f 0) f sp 1

/-- One run of the `update_max` loop with the given fuel. -/
def update_max_run (f : Nat → Nat) (sp : Nat → Bool) (value fuel : Nat) :
    Option Nat :=
  casMaxLoop value fuel (f 0) f sp 1

/-- The `update_min` loop runs forever (exhausts every fuel bound) from
expected value `old` at attempt `i`. -/
def minLoopDiverges (value old : Nat) (f : Nat → Nat) (sp : Nat → Bool)
    (i : Nat) : Prop :=
  ∀ fuel, casMinLoop value fuel old f sp i = none

/-- All three slots hold non-negative finite float patterns. -/
def UVec3.nonnegFinite (u : UVec3) : Prop :=
  u.x < 0x7F800000 ∧ u.y < 0x7F800000 ∧ u.z < 0x7F800000

instance (u : UVec3) : Decidable u.nonnegFinite := by
  unfold UVec3.nonnegFinite; infer_instance

/-- All six slots of the box hold non-negative finite float patterns. -/
def AtomicAABB.nonnegFinite (a : AtomicAABB) : Prop :=
  a.AtomicMin.nonnegFinite ∧ a.AtomicMax.nonnegFinite

instance (a : AtomicAABB) : Decidable a.nonnegFinite := by
  unfold AtomicAABB.nonnegFinite; infer_instance

/-- Whether the box contains the point, component-wise
(`Min <= p && p <= Max` with IEEE comparisons). -/
def AABB.contains (b : AABB) (p : Vec3) : Bool :=
  EFloat.ble b.Min.x p.x && EFloat.ble p.x b.Max.x &&
  EFloat.ble b.Min.y p.y && EFloat.ble p.y b.Max.y &&
  EFloat.ble b.Min.z p.z && EFloat.ble p.z b.Max.z

lemma fltMax_eq : fltMax = (2 ^ 24 - 1) * 2 ^ 104 := by norm_num [fltMax]

/-! Facts about the rounding map. -/

lemma rndZ_intCast (n : ℤ) : rndZ (n : ℚ) = n := by
  unfold rndZ
  rw [Int.floor_intCast]
  norm_num

lemma rndZ_ge_floor (q : ℚ) : ⌊q⌋ ≤ rndZ q := by
  unfold rndZ
  split_ifs <;> omega

lemma rndZ_le_floor_add_one (q : ℚ) : rndZ q ≤ ⌊q⌋ + 1 := by
  unfold rndZ
  split_ifs <;> omega

lemma rndZ_nonneg {q : ℚ} (h : 0 ≤ q) : 0 ≤ rndZ q := by
  have := rndZ_ge_floor q
  have : (0:ℤ) ≤ ⌊q⌋ := Int.floor_nonneg.2 h
  omega

lemma rndZ_eq_zero {q : ℚ} (h0 : 0 ≤ q) (h : q ≤ 1 / 2) : rndZ q = 0 := by
  have hf : ⌊q⌋ = 0 := by
    rw [Int.floor_eq_zero_iff]
    constructor
    · exact h0
    · linarith
  unfold rndZ
  rw [hf]
  push_cast
  rcases lt_or_eq_of_le h with h' | h'
  · rw [if_pos (by linarith)]
  · rw [if_neg (by linarith), if_neg (by linarith), if_pos ⟨0, rfl⟩]

lemma rndZ_mono {a b : ℚ} (h : a ≤ b) : rndZ a ≤ rndZ b := by
  rcases lt_or_eq_of_le (Int.floor_le_floor h) with hf | hf
  · calc rndZ a ≤ ⌊a⌋ + 1 := rndZ_le_floor_add_one a
      _ ≤ ⌊b⌋ := by omega
      _ ≤ rndZ b := rndZ_ge_floor b
  · have hab : a - ⌊a⌋ ≤ b - ⌊b⌋ := by
      rw [← hf]
      linarith
    unfold rndZ
    rw [hf]
    split_ifs <;> first | omega | linarith

namespace EFloat

lemma roundPos_zero : roundPos 0 = fin 0 := by
  unfold roundPos
  rw [Int.log_zero_right]
  norm_num [rndZ]

lemma roundFin_zero : roundFin 0 = fin 0 := by
  unfold roundFin
  rw [if_neg (by norm_num)]
  exact roundPos_zero

lemma roundPos_shape {a : ℚ} (h : 0 ≤ a) :
    roundPos a = pos_inf ∨ ∃ v : ℚ, 0 ≤ v ∧ roundPos a = fin v := by
  simp only [roundPos]
  split_ifs with hv
  · exact Or.inl rfl
  · refine Or.inr ⟨_, ?_, rfl⟩
    have hm : 0 ≤ rndZ (a / 2 ^ (max (Int.log 2 a) (-126) - 23)) :=
      rndZ_nonneg (div_nonneg h (zpow_nonneg (by norm_num) _))
    positivity

lemma roundFin_nonneg_shape {q : ℚ} (h : 0 ≤ q) :
    roundFin q = pos_inf ∨ ∃ v : ℚ, 0 ≤ v ∧ roundFin q = fin v := by
  unfold roundFin
  rw [if_neg (not_lt.2 h)]
  exact roundPos_shape h

lemma roundFin_nonpos_shape {q : ℚ} (h : q ≤ 0) :
    roundFin q = neg_inf ∨ ∃ v : ℚ, v ≤ 0 ∧ roundFin q = fin v := by
  rcases lt_or_eq_of_le h with h' | h'
  · unfold roundFin
    rw [if_pos h']
    rcases roundPos_shape (by linarith : (0:ℚ) ≤ -q) with h2 | ⟨v, hv, h2⟩
    · rw [h2]; exact Or.inl rfl
    · rw [h2]; exact Or.inr ⟨-v, by linarith, rfl⟩
  · rw [h', roundFin_zero]
    exact Or.inr ⟨0, le_rfl, rfl⟩

/-- The rounding map is exact on representable values `k * 2^E` with
`|k| < 2^24`, `E ≥ -149` and magnitude below `2^128`. -/
lemma roundPos_rep (k : ℤ) (E : ℤ) (hk0 : 0 < k) (hk : k < 2 ^ 24)
    (hE : -149 ≤ E) (hv : (k:ℚ) * (2:ℚ) ^ E < (2:ℚ) ^ (128:ℤ)) :
    roundPos ((k:ℚ) * (2:ℚ) ^ E) = fin ((k:ℚ) * (2:ℚ) ^ E) := by
  set a : ℚ := (k:ℚ) * (2:ℚ) ^ E with ha
  have ha0 : 0 < a := by positivity
  set e : ℤ := max (Int.log 2 a) (-126) with he
  -- the grid at exponent e is fine enough: e ≤ E + 23
  have hlog : Int.log 2 a ≤ E + 23 := by
    have h1 : a < (2:ℚ) ^ (E + 24) := by
      have h0 : (k:ℚ) < (2:ℚ) ^ (24:ℕ) := by exact_mod_cast hk
      calc a < (2:ℚ) ^ (24:ℕ) * (2:ℚ) ^ E := by
              rw [ha]; exact mul_lt_mul_of_pos_right h0 (by positivity)
        _ = (2:ℚ) ^ (E + 24) := by
              rw [← zpow_natCast, ← zpow_add₀ (by norm_num : (2:ℚ) ≠ 0)]
              ring_nf
    have h2 : Int.log 2 a < E + 24 :=
      (Int.lt_zpow_iff_log_lt (by norm_num) ha0).1 h1
    omega
  have hee : e ≤ E + 23 := by
    rw [he]
    exact max_le hlog (by omega)
  -- a / 2^(e-23) is the integer k * 2^(E - e + 23)
  have hd : (0:ℤ) ≤ E - e + 23 := by omega
  set d : ℕ := (E - e + 23).toNat with hdd
  have hdE : (d : ℤ) = E - e + 23 := Int.toNat_of_nonneg hd
  have hint : a / (2:ℚ) ^ (e - 23) = ((k * 2 ^ d : ℤ) : ℚ) := by
    rw [ha, div_eq_iff (by positivity : ((2:ℚ) ^ (e - 23)) ≠ 0)]
    push_cast
    rw [mul_assoc, ← zpow_natCast (2:ℚ) d, ← zpow_add₀ (by norm_num : (2:ℚ) ≠ 0)]
    rw [hdE]
    ring_nf
  have hback : ((k * 2 ^ d : ℤ) : ℚ) * (2:ℚ) ^ (e - 23) = a := by
    rw [← hint, div_mul_cancel₀]
    positivity
  simp only [roundPos, ← he]
  rw [hint, rndZ_intCast, hback, if_neg (not_le.2 hv)]

/-- Full signed version of the exactness lemma. -/
lemma roundFin_rep (k E : ℤ) (hk : k.natAbs < 2 ^ 24) (hE : -149 ≤ E)
    (hv : |(k:ℚ)| * (2:ℚ) ^ E < (2:ℚ) ^ (128:ℤ)) :
    roundFin ((k:ℚ) * (2:ℚ) ^ E) = fin ((k:ℚ) * (2:ℚ) ^ E) := by
  rcases lt_trichotomy k 0 with hneg | hzero | hpos
  · have hq : ((k:ℚ) * (2:ℚ) ^ E) < 0 :=
      mul_neg_of_neg_of_pos (by exact_mod_cast hneg) (by positivity)
    unfold roundFin
    rw [if_pos hq]
    have h1 : -((k:ℚ) * (2:ℚ) ^ E) = ((-k : ℤ):ℚ) * (2:ℚ) ^ E := by
      push_cast
      ring
    have h2 : ((-k:ℤ):ℚ) * (2:ℚ) ^ E < (2:ℚ) ^ (128:ℤ) := by
      have : |(k:ℚ)| = ((-k:ℤ):ℚ) := by
        rw [abs_of_neg (by exact_mod_cast hneg : (k:ℚ) < 0)]
        push_cast
        ring
      rwa [this] at hv
    rw [h1, roundPos_rep (-k) E (by omega) (by omega) hE h2]
    simp only [negE]
    congr 1
    push_cast
    ring
  · rw [hzero]
    norm_num [roundFin_zero]
  · have hq : 0 ≤ ((k:ℚ) * (2:ℚ) ^ E) :=
      le_of_lt (mul_pos (by exact_mod_cast hpos) (by positivity))
    unfold roundFin
    rw [if_neg (not_lt.2 hq)]
    refine roundPos_rep k E hpos (by omega) hE ?_
    rwa [abs_of_pos (by exact_mod_cast hpos : (0:ℚ) < (k:ℚ))] at hv

/-- Positive magnitudes at or below half the smallest subnormal round to
zero (underflow). -/
lemma roundPos_tiny {a : ℚ} (h0 : 0 ≤ a) (h : a ≤ (2:ℚ) ^ (-150 : ℤ)) :
    roundPos a = fin 0 := by
  rcases eq_or_lt_of_le h0 with h0' | h0'
  · rw [← h0', roundPos_zero]
  · have hlog : Int.log 2 a ≤ -150 := by
      have hexp : (2:ℚ) ^ (-150:ℤ) < (2:ℚ) ^ (-149:ℤ) :=
        zpow_lt_zpow_right₀ (by norm_num) (by norm_num)
      have h2 : Int.log 2 a < -149 :=
        (Int.lt_zpow_iff_log_lt (by norm_num) h0').1 (lt_of_le_of_lt h hexp)
      omega
    have he : max (Int.log 2 a) (-126) = -126 := max_eq_right (by omega)
    simp only [roundPos, he]
    have harg : a / (2:ℚ) ^ ((-126:ℤ) - 23) ≤ 1 / 2 := by
      rw [div_le_iff (by positivity)]
      calc a ≤ (2:ℚ) ^ (-150:ℤ) := h
        _ = 1 / 2 * (2:ℚ) ^ ((-126:ℤ) - 23) := by
            rw [show ((-126:ℤ) - 23) = (-149:ℤ) by norm_num]
            rw [show (1:ℚ) / 2 = (2:ℚ) ^ (-1:ℤ) by norm_num]
            rw [← zpow_add₀ (by norm_num : (2:ℚ) ≠ 0)]
            norm_num
    rw [rndZ_eq_zero (div_nonneg h0 (by positivity)) harg]
    have hnot : ¬ ((2:ℚ) ^ (128:ℤ) ≤ ((0:ℤ):ℚ) * (2:ℚ) ^ ((-126:ℤ) - 23)) := by
      push_cast
      rw [zero_mul, not_le]
      positivity
    rw [if_neg hnot]
    norm_num

/-- Underflow: any value of magnitude at most `2^(-150)` rounds to zero. -/
lemma roundFin_tiny {q : ℚ} (h : |q| ≤ (2:ℚ) ^ (-150 : ℤ)) :
    roundFin q = fin 0 := by
  unfold roundFin
  split_ifs with hq
  · rw [roundPos_tiny (by linarith) (by rwa [abs_of_neg hq] at h)]
    simp [negE]
  · rw [roundPos_tiny (not_lt.1 hq) (by rwa [abs_of_nonneg (not_lt.1 hq)] at h)]

/-- Overflow: magnitudes at or above `2^128` round to infinity. -/
lemma roundPos_big {a : ℚ} (h : (2:ℚ) ^ (128:ℤ) ≤ a) : roundPos a = pos_inf := by
  have ha0 : 0 < a := lt_of_lt_of_le (by positivity) h
  have hlog : (128:ℤ) ≤ Int.log 2 a := (Int.zpow_le_iff_le_log (by norm_num) ha0).1 h
  have he : max (Int.log 2 a) (-126) = Int.log 2 a := max_eq_left (by omega)
  simp only [roundPos, he]
  have h1 : (2:ℚ) ^ (Int.log 2 a) ≤ a := Int.zpow_log_le_self (by norm_num) ha0
  have harg : (2:ℚ) ^ (23:ℤ) ≤ a / (2:ℚ) ^ (Int.log 2 a - 23) := by
    rw [le_div_iff (by positivity)]
    rw [← zpow_add₀ (by norm_num : (2:ℚ) ≠ 0)]
    calc (2:ℚ) ^ (23 + (Int.log 2 a - 23)) = (2:ℚ) ^ (Int.log 2 a) := by ring_nf
      _ ≤ a := h1
  have hm : (2 ^ 23 : ℤ) ≤ rndZ (a / (2:ℚ) ^ (Int.log 2 a - 23)) := by
    have hf : (2 ^ 23 : ℤ) ≤ ⌊a / (2:ℚ) ^ (Int.log 2 a - 23)⌋ := by
      rw [Int.le_floor]
      exact_mod_cast harg
    have := rndZ_ge_floor (a / (2:ℚ) ^ (Int.log 2 a - 23))
    omega
  rw [if_pos]
  calc (2:ℚ) ^ (128:ℤ) ≤ (2:ℚ) ^ (Int.log 2 a) := zpow_le_of_le (by norm_num) hlog
    _ = (2:ℚ) ^ (23:ℤ) * (2:ℚ) ^ (Int.log 2 a - 23) := by
        rw [← zpow_add₀ (by norm_num : (2:ℚ) ≠ 0)]
        ring_nf
    _ ≤ (rndZ (a / (2:ℚ) ^ (Int.log 2 a - 23)) : ℚ) * (2:ℚ) ^ (Int.log 2 a - 23) := by
        refine mul_le_mul_of_nonneg_right ?_ (by positivity)
        exact_mod_cast hm

lemma roundFin_big {q : ℚ} (h : (2:ℚ) ^ (128:ℤ) ≤ q) : roundFin q = pos_inf := by
  have h0 : (0:ℚ) ≤ q := le_trans (le_of_lt (by positivity : (0:ℚ) < (2:ℚ) ^ (128:ℤ))) h
  unfold roundFin
  rw [if_neg (not_lt.2 h0)]
  exact roundPos_big h

lemma roundFin_small {q : ℚ} (h : q ≤ -(2:ℚ) ^ (128:ℤ)) : roundFin q = neg_inf := by
  have hq : q < 0 := lt_of_le_of_lt h (neg_lt_zero.2 (by positivity))
  unfold roundFin
  rw [if_pos hq, roundPos_big (by linarith), negE]

/-- Rounding of non-negative values is monotone. -/
lemma roundPos_mono {a b : ℚ} (ha : 0 ≤ a) (hab : a ≤ b) :
    ble (roundPos a) (roundPos b) = true := by
  rcases eq_or_lt_of_le ha with ha0 | ha0
  · rw [← ha0, roundPos_zero]
    rcases roundPos_shape (le_trans ha hab) with h | ⟨v, hv, h⟩
    · rw [h]
      rfl
    · rw [h]
      simp only [ble, decide_eq_true_eq]
      exact hv
  · have hb0 : 0 < b := lt_of_lt_of_le ha0 hab
    have hlogab : Int.log 2 a ≤ Int.log 2 b := Int.log_mono_right ha0 hab
    have heab : max (Int.log 2 a) (-126) ≤ max (Int.log 2 b) (-126) :=
      max_le_max hlogab le_rfl
    have hvab : (rndZ (a / (2:ℚ) ^ (max (Int.log 2 a) (-126) - 23)) : ℚ) *
        (2:ℚ) ^ (max (Int.log 2 a) (-126) - 23) ≤
        (rndZ (b / (2:ℚ) ^ (max (Int.log 2 b) (-126) - 23)) : ℚ) *
        (2:ℚ) ^ (max (Int.log 2 b) (-126) - 23) := by
      rcases eq_or_lt_of_le heab with he | he
      · rw [← he]
        refine mul_le_mul_of_nonneg_right ?_ (by positivity)
        have hq : a / (2:ℚ) ^ (max (Int.log 2 a) (-126) - 23) ≤
            b / (2:ℚ) ^ (max (Int.log 2 a) (-126) - 23) :=
          (div_le_div_right (by positivity)).2 hab
        exact_mod_cast rndZ_mono hq
      · -- exponent strictly grows: v_a ≤ 2^(e_a+1) ≤ 2^(e_b) ≤ v_b
        have ha1 : a < (2:ℚ) ^ (max (Int.log 2 a) (-126) + 1) := by
          calc a < (2:ℚ) ^ (Int.log 2 a + 1) :=
                Int.lt_zpow_succ_log_self (by norm_num) a
            _ ≤ (2:ℚ) ^ (max (Int.log 2 a) (-126) + 1) :=
                zpow_le_of_le (by norm_num) (by omega)
        have hma : rndZ (a / (2:ℚ) ^ (max (Int.log 2 a) (-126) - 23)) ≤ 2 ^ 24 := by
          have hfl : ⌊a / (2:ℚ) ^ (max (Int.log 2 a) (-126) - 23)⌋ < 2 ^ 24 := by
            rw [Int.floor_lt]
            push_cast
            rw [div_lt_iff (by positivity)]
            calc a < (2:ℚ) ^ (max (Int.log 2 a) (-126) + 1) := ha1
              _ = 2 ^ (24:ℕ) * (2:ℚ) ^ (max (Int.log 2 a) (-126) - 23) := by
                  rw [← zpow_natCast (2:ℚ) 24, ← zpow_add₀ (by norm_num : (2:ℚ) ≠ 0)]
                  ring_nf
          have := rndZ_le_floor_add_one (a / (2:ℚ) ^ (max (Int.log 2 a) (-126) - 23))
          omega
        have hva : (rndZ (a / (2:ℚ) ^ (max (Int.log 2 a) (-126) - 23)) : ℚ) *
            (2:ℚ) ^ (max (Int.log 2 a) (-126) - 23) ≤
            (2:ℚ) ^ (max (Int.log 2 a) (-126) + 1) := by
          calc (rndZ (a / (2:ℚ) ^ (max (Int.log 2 a) (-126) - 23)) : ℚ) *
              (2:ℚ) ^ (max (Int.log 2 a) (-126) - 23)
              ≤ (2 ^ 24 : ℚ) * (2:ℚ) ^ (max (Int.log 2 a) (-126) - 23) := by
                refine mul_le_mul_of_nonneg_right ?_ (by positivity)
                exact_mod_cast hma
            _ = (2:ℚ) ^ (max (Int.log 2 a) (-126) + 1) := by
                rw [show ((2:ℚ) ^ 24 : ℚ) = (2:ℚ) ^ (24:ℕ) by norm_num]
                rw [← zpow_natCast (2:ℚ) 24, ← zpow_add₀ (by norm_num : (2:ℚ) ≠ 0)]
                ring_nf
        have heb : max (Int.log 2 b) (-126) = Int.log 2 b := by omega
        have hb1 : (2:ℚ) ^ (max (Int.log 2 b) (-126)) ≤ b := by
          rw [heb]
          exact Int.zpow_log_le_self (by norm_num) hb0
        have hmb : (2 ^ 23 : ℤ) ≤
            rndZ (b / (2:ℚ) ^ (max (Int.log 2 b) (-126) - 23)) := by
          have hfl : (2 ^ 23 : ℤ) ≤
              ⌊b / (2:ℚ) ^ (max (Int.log 2 b) (-126) - 23)⌋ := by
            rw [Int.le_floor]
            push_cast
            rw [le_div_iff (by positivity)]
            calc ((2:ℚ) ^ (23:ℕ)) * (2:ℚ) ^ (max (Int.log 2 b) (-126) - 23)
                = (2:ℚ) ^ (max (Int.log 2 b) (-126)) := by
                  rw [← zpow_natCast (2:ℚ) 23, ← zpow_add₀ (by norm_num : (2:ℚ) ≠ 0)]
                  ring_nf
              _ ≤ b := hb1
          have := rndZ_ge_floor (b / (2:ℚ) ^ (max (Int.log 2 b) (-126) - 23))
          omega
        have hvb : (2:ℚ) ^ (max (Int.log 2 b) (-126)) ≤
            (rndZ (b / (2:ℚ) ^ (max (Int.log 2 b) (-126) - 23)) : ℚ) *
            (2:ℚ) ^ (max (Int.log 2 b) (-126) - 23) := by
          calc (2:ℚ) ^ (max (Int.log 2 b) (-126))
              = (2 ^ 23 : ℚ) * (2:ℚ) ^ (max (Int.log 2 b) (-126) - 23) := by
                rw [show ((2:ℚ) ^ 23 : ℚ) = (2:ℚ) ^ (23:ℕ) by norm_num]
                rw [← zpow_natCast (2:ℚ) 23, ← zpow_add₀ (by norm_num : (2:ℚ) ≠ 0)]
                ring_nf
            _ ≤ _ := by
                refine mul_le_mul_of_nonneg_right ?_ (by positivity)
                exact_mod_cast hmb
        have hmid : (2:ℚ) ^ (max (Int.log 2 a) (-126) + 1) ≤
            (2:ℚ) ^ (max (Int.log 2 b) (-126)) :=
          zpow_le_of_le (by norm_num) (by omega)
        linarith
    simp only [roundPos]
    split_ifs with h1 h2 h2
    · rfl
    · exact absurd (le_trans h1 hvab) h2
    · rfl
    · simp only [ble, decide_eq_true_eq]
      exact hvab

/-- Negation reverses the IEEE comparison. -/
lemma ble_negE {x y : EFloat} (h : ble x y = true) :
    ble (negE y) (negE x) = true := by
  cases x <;> cases y <;>
    simp only [ble, negE, decide_eq_true_eq] at h ⊢ <;>
    first | trivial | linarith

/-- Rounding is monotone. -/
lemma roundFin_mono {a b : ℚ} (h : a ≤ b) :
    ble (roundFin a) (roundFin b) = true := by
  unfold roundFin
  split_ifs with h1 h2 h2
  · exact ble_negE (roundPos_mono (by linarith) (by linarith))
  · rcases roundPos_shape (by linarith : (0:ℚ) ≤ -a) with hx | ⟨v, hv, hx⟩ <;>
      rcases roundPos_shape (not_lt.1 h2) with hy | ⟨w, hw, hy⟩ <;>
      rw [hx, hy] <;>
      simp only [ble, negE, decide_eq_true_eq] <;>
      linarith
  · exact absurd (lt_of_le_of_lt h h2) h1
  · exact roundPos_mono (not_lt.1 h1) h

/-- Squeeze a value between two finite comparisons. -/
lemma ble_squeeze {c d : ℚ} {x : EFloat} (h1 : ble (fin c) x = true)
    (h2 : ble x (fin d) = true) : ∃ w : ℚ, c ≤ w ∧ w ≤ d ∧ x = fin w := by
  cases x with
  | nan => simp [ble] at h1
  | neg_inf => simp [ble] at h1
  | pos_inf => simp [ble] at h2
  | fin w =>
    simp only [ble, decide_eq_true_eq] at h1 h2
    exact ⟨w, h1, h2, rfl⟩

/-- Integers of magnitude below `2^24` are exactly representable. -/
lemma roundFin_int (n : ℤ) (hn : n.natAbs < 2 ^ 24) :
    roundFin ((n:ℤ):ℚ) = fin ((n:ℤ):ℚ) := by
  have habs : |((n:ℤ):ℚ)| < (2:ℚ) ^ (128:ℤ) := by
    have h1 : (n.natAbs : ℚ) < 2 ^ 24 := by exact_mod_cast hn
    have h2 : |((n:ℤ):ℚ)| = (n.natAbs : ℚ) := by
      rw [Int.cast_natAbs]
      norm_num
    have h3 : (2:ℚ) ^ (24:ℕ) ≤ (2:ℚ) ^ (128:ℤ) := by
      calc (2:ℚ) ^ (24:ℕ) = (2:ℚ) ^ (24:ℤ) := by norm_num
        _ ≤ (2:ℚ) ^ (128:ℤ) := zpow_le_of_le (by norm_num) (by norm_num)
    calc |((n:ℤ):ℚ)| = (n.natAbs : ℚ) := h2
      _ < 2 ^ 24 := h1
      _ ≤ (2:ℚ) ^ (128:ℤ) := by exact_mod_cast h3
  have h := roundFin_rep n 0 hn (by norm_num) (by rwa [zpow_zero, mul_one])
  rwa [zpow_zero, mul_one] at h

/-- Exactness of the rounding map at a value given in integer form. -/
lemma roundFin_num (q : ℚ) (n : ℤ) (h : q = (n:ℚ)) (hn : n.natAbs < 2 ^ 24) :
    roundFin q = fin q := by
  rw [h, roundFin_int n hn]

lemma zpow_lt_big {E : ℤ} (h : E ≤ 127) : (2:ℚ) ^ E < (2:ℚ) ^ (128:ℤ) :=
  zpow_lt_zpow_right₀ (by norm_num) (by omega)

/-- Powers of two in the representable exponent range are exact. -/
lemma roundFin_one_zpow (E : ℤ) (hE : -149 ≤ E) (h2 : E ≤ 127) :
    roundFin ((2:ℚ) ^ E) = fin ((2:ℚ) ^ E) := by
  have h := roundFin_rep 1 E (by norm_num) hE
    (by push_cast; rw [abs_one, one_mul]; exact zpow_lt_big h2)
  simpa using h

/-- Negated powers of two in the representable exponent range are exact. -/
lemma roundFin_neg_zpow (E : ℤ) (hE : -149 ≤ E) (h2 : E ≤ 127) :
    roundFin (-(2:ℚ) ^ E) = fin (-(2:ℚ) ^ E) := by
  have h := roundFin_rep (-1) E (by norm_num) hE
    (by push_cast; rw [abs_neg, abs_one, one_mul]; exact zpow_lt_big h2)
  simpa using h

/-- Powers of two at or below `2^-150` underflow to zero. -/
lemma roundFin_zpow_tiny {E : ℤ} (h : E ≤ -150) :
    roundFin ((2:ℚ) ^ E) = fin 0 := by
  refine roundFin_tiny ?_
  rw [abs_of_nonneg (by positivity)]
  exact zpow_le_of_le (by norm_num) h

/-- Negated powers of two at or below `2^-150` underflow to zero. -/
lemma roundFin_neg_zpow_tiny {E : ℤ} (h : E ≤ -150) :
    roundFin (-(2:ℚ) ^ E) = fin 0 := by
  refine roundFin_tiny ?_
  rw [abs_neg, abs_of_nonneg (by positivity)]
  exact zpow_le_of_le (by norm_num) h

end EFloat


/-! Monotonicity of the bit-pattern-to-value map on non-negative patterns. -/

lemma patVal_lt_succ (n : Nat) : patVal n < patVal (n + 1) := by
  unfold patVal
  rcases Nat.lt_or_ge (n % 2 ^ 23) (2 ^ 23 - 1) with hm | hm
  · have h1 : (n + 1) % 2 ^ 23 = n % 2 ^ 23 + 1 := by omega
    have h2 : (n + 1) / 2 ^ 23 = n / 2 ^ 23 := by omega
    rw [h1, h2]
    refine mul_lt_mul_of_pos_right ?_ (pow_pos (by norm_num) _)
    omega
  · have hlt : n % 2 ^ 23 < 2 ^ 23 := Nat.mod_lt _ (by norm_num)
    have hm' : n % 2 ^ 23 = 2 ^ 23 - 1 := by omega
    have h1 : (n + 1) % 2 ^ 23 = 0 := by omega
    have h2 : (n + 1) / 2 ^ 23 = n / 2 ^ 23 + 1 := by omega
    rw [h1, h2, hm']
    rcases Nat.eq_zero_or_pos (n / 2 ^ 23) with he | he
    · rw [he]; norm_num
    · have hmax : max (n / 2 ^ 23) 1 = n / 2 ^ 23 := by omega
      have hmax2 : max (n / 2 ^ 23 + 1) 1 = n / 2 ^ 23 + 1 := by omega
      rw [hmax, hmax2, if_neg (by omega), if_neg (by omega), pow_succ]
      calc (2 ^ 23 - 1 + 2 ^ 23) * 2 ^ (n / 2 ^ 23)
          < (2 ^ 23 * 2) * 2 ^ (n / 2 ^ 23) :=
            mul_lt_mul_of_pos_right (by norm_num) (pow_pos (by norm_num) _)
        _ = (0 + 2 ^ 23) * (2 ^ (n / 2 ^ 23) * 2) := by ring

lemma patVal_strictMono : StrictMono patVal :=
  strictMono_nat_of_lt_succ patVal_lt_succ

/-- On non-negative patterns, the numeric order agrees with the unsigned
integer order of the bit patterns. -/
lemma sval_le_iff {a b : Nat} (ha : a < 2 ^ 31) (hb : b < 2 ^ 31) :
    sval a ≤ sval b ↔ a ≤ b := by
  unfold sval
  rw [if_pos ha, if_pos hb,
    div_le_div_iff_of_pos_right (by norm_num : (0:ℚ) < 2 ^ 150), Nat.cast_le]
  exact patVal_strictMono.le_iff_le

lemma sval_min_comm {a b : Nat} (ha : a < 2 ^ 31) (hb : b < 2 ^ 31) :
    sval (min a b) = min (sval a) (sval b) := by
  rcases le_total a b with h | h
  · rw [min_eq_left h, min_eq_left ((sval_le_iff ha hb).2 h)]
  · rw [min_eq_right h, min_eq_right ((sval_le_iff hb ha).2 h)]

lemma sval_max_comm {a b : Nat} (ha : a < 2 ^ 31) (hb : b < 2 ^ 31) :
    sval (max a b) = max (sval a) (sval b) := by
  rcases le_total a b with h | h
  · rw [max_eq_right h, max_eq_right ((sval_le_iff ha hb).2 h)]
  · rw [max_eq_left h, max_eq_left ((sval_le_iff hb ha).2 h)]

lemma update_min_eq_min (a v : Nat) : update_min a v = min a v := by
  unfold update_min; split <;> omega

lemma update_max_eq_max (a v : Nat) : update_max a v = max a v := by
  unfold update_max; split <;> omega

/-- Components of an atomically expanded box: numeric minimum, granted
non-negative finite patterns. -/
lemma sval_update_min {a v : Nat} (ha : a < 0x7F800000) (hv : v < 0x7F800000) :
    sval (update_min a v) = min (sval a) (sval v) := by
  rw [update_min_eq_min]
  exact sval_min_comm (by omega) (by omega)

lemma sval_update_max {a v : Nat} (ha : a < 0x7F800000) (hv : v < 0x7F800000) :
    sval (update_max a v) = max (sval a) (sval v) := by
  rw [update_max_eq_max]
  exact sval_max_comm (by omega) (by omega)

/-- C1: for boxes whose twelve stored components are all non-negative finite
float patterns, the sequential `A.Expand(B)` stores, in each component, the
pattern of the numeric component-wise minimum of the `Min`s and maximum of
the `Max`s (the unsigned bit-pattern comparison is order-preserving there);
and there exist boxes with a negative stored component for which this
numeric equality fails. -/
theorem C1_atomic_expand_nonneg_exact (a b : AtomicAABB)
    (ha : a.nonnegFinite) (hb : b.nonnegFinite) :
    (sval ((a.Expand b).AtomicMin.x) = min (sval a.AtomicMin.x) (sval b.AtomicMin.x) ∧
     sval ((a.Expand b).AtomicMin.y) = min (sval a.AtomicMin.y) (sval b.AtomicMin.y) ∧
     sval ((a.Expand b).AtomicMin.z) = min (sval a.AtomicMin.z) (sval b.AtomicMin.z) ∧
     sval ((a.Expand b).AtomicMax.x) = max (sval a.AtomicMax.x) (sval b.AtomicMax.x) ∧
     sval ((a.Expand b).AtomicMax.y) = max (sval a.AtomicMax.y) (sval b.AtomicMax.y) ∧
     sval ((a.Expand b).AtomicMax.z) = max (sval a.AtomicMax.z) (sval b.AtomicMax.z)) ∧
    ∃ A B : AtomicAABB, 2 ^ 31 ≤ A.AtomicMin.x ∧
      sval ((A.Expand B).AtomicMin.x) ≠ min (sval A.AtomicMin.x) (sval B.AtomicMin.x) := by
  obtain ⟨⟨ha1, ha2, ha3⟩, ⟨ha4, ha5, ha6⟩⟩ := ha
  obtain ⟨⟨hb1, hb2, hb3⟩, ⟨hb4, hb5, hb6⟩⟩ := hb
  refine ⟨⟨sval_update_min ha1 hb1, sval_update_min ha2 hb2, sval_update_min ha3 hb3,
    sval_update_max ha4 hb4, sval_update_max ha5 hb5, sval_update_max ha6 hb6⟩, ?_⟩
  refine ⟨⟨⟨0xBF800000, 0, 0⟩, ⟨0, 0, 0⟩⟩, ⟨⟨0, 0, 0⟩, ⟨0, 0, 0⟩⟩, by norm_num, ?_⟩
  show sval (update_min 0xBF800000 0) ≠ min (sval 0xBF800000) (sval 0)
  norm_num [update_min, sval, patVal, min_def]

/-- Witness for C1 at two concrete all-non-negative boxes. -/
theorem C1_atomic_expand_nonneg_exact_witness :
    (AtomicAABB.nonnegFinite ⟨⟨0x3F800000, 0, 0⟩, ⟨0x40000000, 0, 0⟩⟩) ∧
    (AtomicAABB.nonnegFinite ⟨⟨0, 0, 0⟩, ⟨0, 0, 0⟩⟩) ∧
    ((sval ((AtomicAABB.Expand ⟨⟨0x3F800000, 0, 0⟩, ⟨0x40000000, 0, 0⟩⟩
        ⟨⟨0, 0, 0⟩, ⟨0, 0, 0⟩⟩).AtomicMin.x) =
      min (sval 0x3F800000) (sval 0) ∧
      sval ((AtomicAABB.Expand ⟨⟨0x3F800000, 0, 0⟩, ⟨0x40000000, 0, 0⟩⟩
        ⟨⟨0, 0, 0⟩, ⟨0, 0, 0⟩⟩).AtomicMin.y) = min (sval 0) (sval 0) ∧
      sval ((AtomicAABB.Expand ⟨⟨0x3F800000, 0, 0⟩, ⟨0x40000000, 0, 0⟩⟩
        ⟨⟨0, 0, 0⟩, ⟨0, 0, 0⟩⟩).AtomicMin.z) = min (sval 0) (sval 0) ∧
      sval ((AtomicAABB.Expand ⟨⟨0x3F800000, 0, 0⟩, ⟨0x40000000, 0, 0⟩⟩
        ⟨⟨0, 0, 0⟩, ⟨0, 0, 0⟩⟩).AtomicMax.x) = max (sval 0x40000000) (sval 0) ∧
      sval ((AtomicAABB.Expand ⟨⟨0x3F800000, 0, 0⟩, ⟨0x40000000, 0, 0⟩⟩
        ⟨⟨0, 0, 0⟩, ⟨0, 0, 0⟩⟩).AtomicMax.y) = max (sval 0) (sval 0) ∧
      sval ((AtomicAABB.Expand ⟨⟨0x3F800000, 0, 0⟩, ⟨0x40000000, 0, 0⟩⟩
        ⟨⟨0, 0, 0⟩, ⟨0, 0, 0⟩⟩).AtomicMax.z) = max (sval 0) (sval 0)) ∧
      ∃ A B : AtomicAABB, 2 ^ 31 ≤ A.AtomicMin.x ∧
        sval ((A.Expand B).AtomicMin.x) ≠
          min (sval A.AtomicMin.x) (sval B.AtomicMin.x)) :=
  ⟨by decide, by decide,
    C1_atomic_expand_nonneg_exact ⟨⟨0x3F800000, 0, 0⟩, ⟨0x40000000, 0, 0⟩⟩
      ⟨⟨0, 0, 0⟩, ⟨0, 0, 0⟩⟩ (by decide) (by decide)⟩

/-- C5 counterexample: `Initialize()` does not store `+inf` into `Min` (it
stores the finite FLT_MAX; likewise `Max` receives `-FLT_MAX`, not `-inf`). -/
theorem C5_init_counterexample :
    AABB.Initialize.Min.x ≠ EFloat.pos_inf ∧
    AABB.Initialize.Max.x ≠ EFloat.neg_inf := by decide

/-- C5 (amended): `Initialize()` resets the box to
`Min = FLT_MAX` (the largest finite float) and `Max = -FLT_MAX` on every
component — the extreme finite values rather than the infinities — and
expanding the freshly initialized box with any finite float point `p`
(every finite float satisfies `-FLT_MAX ≤ p ≤ FLT_MAX`) yields
`Min = Max = p`. -/
theorem C5_init_amended (p : Vec3) (q1 q2 q3 : ℚ)
    (hx : p.x = .fin q1) (hy : p.y = .fin q2) (hz : p.z = .fin q3)
    (h1 : -fltMax ≤ q1 ∧ q1 ≤ fltMax) (h2 : -fltMax ≤ q2 ∧ q2 ≤ fltMax)
    (h3 : -fltMax ≤ q3 ∧ q3 ≤ fltMax) :
    AABB.Initialize = ⟨⟨maximum, maximum, maximum⟩, ⟨minimum, minimum, minimum⟩⟩ ∧
    (AABB.Expand AABB.Initialize p).Min = p ∧ (AABB.Expand AABB.Initialize p).Max = p := by
  refine ⟨rfl, ?_, ?_⟩
  · simp only [ AABB.Initialize, AABB.Expand, vMin, vMax, glmMin, glmMax,
      maximum, minimum, EFloat.blt, hx, hy, hz]
    rw [if_neg (by simpa using not_lt.2 h1.2), if_neg (by simpa using not_lt.2 h2.2),
      if_neg (by simpa using not_lt.2 h3.2), ← hx, ← hy, ← hz]
  · simp only [ AABB.Initialize, AABB.Expand, vMin, vMax, glmMin, glmMax,
      maximum, minimum, EFloat.blt, hx, hy, hz]
    rw [if_neg (by simpa using not_lt.2 h1.1), if_neg (by simpa using not_lt.2 h2.1),
      if_neg (by simpa using not_lt.2 h3.1), ← hx, ← hy, ← hz]

/-- Witness for the amended C5 at the concrete point `(0, 0, 0)`. -/
theorem C5_init_amended_witness :
    ((⟨.fin 0, .fin 0, .fin 0⟩ : Vec3).x = EFloat.fin 0) ∧
    (-fltMax ≤ (0:ℚ) ∧ (0:ℚ) ≤ fltMax) ∧
    (AABB.Initialize = ⟨⟨maximum, maximum, maximum⟩, ⟨minimum, minimum, minimum⟩⟩ ∧
     (AABB.Expand AABB.Initialize ⟨.fin 0, .fin 0, .fin 0⟩).Min = ⟨.fin 0, .fin 0, .fin 0⟩ ∧
     (AABB.Expand AABB.Initialize ⟨.fin 0, .fin 0, .fin 0⟩).Max = ⟨.fin 0, .fin 0, .fin 0⟩) :=
  ⟨by decide, by decide,
    C5_init_amended ⟨.fin 0, .fin 0, .fin 0⟩ 0 0 0 rfl rfl rfl
      (by decide) (by decide) (by decide)⟩

/-- C6 counterexample: the default-constructed `Node` does not hold the
`Min = +inf`, `Max = -inf` empty box: its `AtomicMax` slots hold the bit
pattern `0`, which denotes `+0.0`, not `-inf`, and its `AtomicMin` slots
hold the pattern of the finite FLT_MAX, not `+inf`. -/
theorem C6_node_counterexample :
    toEFloat Node.new.Box.AtomicMax.x ≠ EFloat.neg_inf ∧
    toEFloat Node.new.Box.AtomicMin.x ≠ EFloat.pos_inf := by
  constructor
  · show toEFloat 0 ≠ EFloat.neg_inf
    norm_num [toEFloat]
    exact fun h => EFloat.noConfusion h
  · show toEFloat uintMaximum ≠ EFloat.pos_inf
    norm_num [toEFloat, uintMaximum]
    exact fun h => EFloat.noConfusion h

/-- C6 (amended): every default-constructed `Node` has both child references
equal to the all-ones sentinel `invalid`, and its box initialized with every
`AtomicMin` slot holding the bit pattern of FLT_MAX (numeric value
`(2^24 - 1) * 2^104`) and every `AtomicMax` slot holding the pattern `0`
(numeric value `+0.0`) — the identity elements of the unsigned-compare
min/max scheme, rather than the `+inf` / `-inf` of the specification. -/
theorem C6_node_default :
    Node.new.L = invalid ∧ Node.new.R = invalid ∧ invalid = 2 ^ 32 - 1 ∧
    Node.new.Box.AtomicMin = ⟨uintMaximum, uintMaximum, uintMaximum⟩ ∧
    Node.new.Box.AtomicMax = ⟨0, 0, 0⟩ ∧
    sval uintMaximum = (2 ^ 24 - 1) * 2 ^ 104 ∧ sval 0 = 0 := by
  refine ⟨rfl, rfl, rfl, rfl, rfl, ?_, ?_⟩ <;> norm_num [sval, patVal, uintMaximum]

/-! Point expansion. -/

lemma glmMin_fin (a b : ℚ) : glmMin (.fin a) (.fin b) = .fin (min a b) := by
  simp only [glmMin, EFloat.blt]
  rcases lt_or_ge b a with h | h
  · rw [if_pos (by simpa using h), min_eq_right h.le]
  · rw [if_neg (by simpa using not_lt.2 h), min_eq_left h]

lemma glmMax_fin (a b : ℚ) : glmMax (.fin a) (.fin b) = .fin (max a b) := by
  simp only [glmMax, EFloat.blt]
  rcases lt_or_ge a b with h | h
  · rw [if_pos (by simpa using h), max_eq_right h.le]
  · rw [if_neg (by simpa using not_lt.2 h), max_eq_left h]

lemma ble_fin_trans_left {a b : ℚ} (h : a ≤ b) {c : EFloat}
    (hc : EFloat.ble (.fin b) c = true) : EFloat.ble (.fin a) c = true := by
  cases c <;> simp [EFloat.ble] at hc ⊢
  linarith

lemma ble_fin_trans_right {a b : ℚ} (h : b ≤ a) {c : EFloat}
    (hc : EFloat.ble c (.fin b) = true) : EFloat.ble c (.fin a) = true := by
  cases c <;> simp [EFloat.ble] at hc ⊢
  linarith

/-- C7: `Expand(p)` performs exactly the component-wise update
`Min := min(p, Min)`, `Max := max(p, Max)` (numeric min/max on finite
values), the whole resulting state being exactly that pair of vectors;
the result contains `p`, and it contains every point the box contained
before. -/
theorem C7_expand_point (b : AABB) (p : Vec3)
    (q1 q2 q3 m1 m2 m3 M1 M2 M3 : ℚ)
    (hp1 : p.x = .fin q1) (hp2 : p.y = .fin q2) (hp3 : p.z = .fin q3)
    (hb1 : b.Min.x = .fin m1) (hb2 : b.Min.y = .fin m2) (hb3 : b.Min.z = .fin m3)
    (hB1 : b.Max.x = .fin M1) (hB2 : b.Max.y = .fin M2) (hB3 : b.Max.z = .fin M3) :
    b.Expand p = ⟨⟨.fin (min q1 m1), .fin (min q2 m2), .fin (min q3 m3)⟩,
                  ⟨.fin (max q1 M1), .fin (max q2 M2), .fin (max q3 M3)⟩⟩ ∧
    (b.Expand p).contains p = true ∧
    ∀ q : Vec3, b.contains q = true → (b.Expand p).contains q = true := by
  have hex : b.Expand p = ⟨⟨.fin (min q1 m1), .fin (min q2 m2), .fin (min q3 m3)⟩,
      ⟨.fin (max q1 M1), .fin (max q2 M2), .fin (max q3 M3)⟩⟩ := by
    simp [AABB.Expand, vMin, vMax, hp1, hp2, hp3, hb1, hb2, hb3, hB1, hB2, hB3,
      glmMin_fin, glmMax_fin]
  refine ⟨hex, ?_, ?_⟩
  · rw [hex]
    simp [AABB.contains, hp1, hp2, hp3, EFloat.ble]
  · intro q hq
    rw [hex]
    simp only [AABB.contains, hb1, hb2, hb3, hB1, hB2, hB3, Bool.and_eq_true] at hq
    obtain ⟨⟨⟨⟨⟨c1, c2⟩, c3⟩, c4⟩, c5⟩, c6⟩ := hq
    simp only [AABB.contains, Bool.and_eq_true]
    exact ⟨⟨⟨⟨⟨ble_fin_trans_left (min_le_right _ _) c1,
      ble_fin_trans_right (le_max_right _ _) c2⟩,
      ble_fin_trans_left (min_le_right _ _) c3⟩,
      ble_fin_trans_right (le_max_right _ _) c4⟩,
      ble_fin_trans_left (min_le_right _ _) c5⟩,
      ble_fin_trans_right (le_max_right _ _) c6⟩

/-- Witness for C7: the unit box expanded by the point `(2, 2, 2)`. -/
theorem C7_expand_point_witness :
    ((⟨.fin 2, .fin 2, .fin 2⟩ : Vec3).x = EFloat.fin 2) ∧
    ((⟨⟨.fin 0, .fin 0, .fin 0⟩, ⟨.fin 1, .fin 1, .fin 1⟩⟩ : AABB).Min.x = .fin 0) ∧
    (AABB.Expand ⟨⟨.fin 0, .fin 0, .fin 0⟩, ⟨.fin 1, .fin 1, .fin 1⟩⟩
        ⟨.fin 2, .fin 2, .fin 2⟩ =
      ⟨⟨.fin (min 2 0), .fin (min 2 0), .fin (min 2 0)⟩,
       ⟨.fin (max 2 1), .fin (max 2 1), .fin (max 2 1)⟩⟩ ∧
     (AABB.Expand ⟨⟨.fin 0, .fin 0, .fin 0⟩, ⟨.fin 1, .fin 1, .fin 1⟩⟩
        ⟨.fin 2, .fin 2, .fin 2⟩).contains ⟨.fin 2, .fin 2, .fin 2⟩ = true ∧
     ∀ q : Vec3,
       (⟨⟨.fin 0, .fin 0, .fin 0⟩, ⟨.fin 1, .fin 1, .fin 1⟩⟩ : AABB).contains q = true →
       (AABB.Expand ⟨⟨.fin 0, .fin 0, .fin 0⟩, ⟨.fin 1, .fin 1, .fin 1⟩⟩
          ⟨.fin 2, .fin 2, .fin 2⟩).contains q = true) :=
  ⟨rfl, rfl,
    C7_expand_point ⟨⟨.fin 0, .fin 0, .fin 0⟩, ⟨.fin 1, .fin 1, .fin 1⟩⟩
      ⟨.fin 2, .fin 2, .fin 2⟩ 2 2 2 0 0 0 1 1 1
      rfl rfl rfl rfl rfl rfl rfl rfl rfl⟩

/-! Morton encoding. -/

set_option maxRecDepth 100000 in
set_option maxHeartbeats 4000000 in
lemma expandBits_eq_ref : ∀ v : Fin 1024,
    expandBits v.val = refExpandBits v.val ∧ expandBits v.val ≤ 0x09249249 := by
  decide

lemma toCell_lt (x : ℚ) : toCell x < 1024 := by
  have h1 : (↑⌊min (max (x * 1024) 0) 1023⌋ : ℚ) ≤ 1023 :=
    le_trans (Int.floor_le _) (min_le_right _ _)
  have h2 : ⌊min (max (x * 1024) 0) 1023⌋ ≤ 1023 := by exact_mod_cast h1
  unfold toCell
  omega

/-- C2: the Morton encoder agrees with the reference encoding — scale by
1024, clamp to `[0, 1023]`, truncate, send bit `i` of each truncated
coordinate to bit `3 * i`, and combine the masks as `xx*4 + yy*2 + zz` —
and the result is always below `2^30`.  Coordinates are modelled by the
exact rationals the floats denote (scaling by the power of two 1024,
clamping and truncation are exact in IEEE-754 arithmetic). -/
theorem C2_morton3D_ref (x y z : ℚ) :
    morton3D x y z = refMorton3D x y z ∧ morton3D x y z < 2 ^ 30 := by
  have ex := expandBits_eq_ref ⟨toCell x, toCell_lt x⟩
  have ey := expandBits_eq_ref ⟨toCell y, toCell_lt y⟩
  have ez := expandBits_eq_ref ⟨toCell z, toCell_lt z⟩
  constructor
  · unfold morton3D refMorton3D
    rw [ex.1, ey.1, ez.1]
  · unfold morton3D
    have hx : expandBits (toCell x) ≤ 0x09249249 := ex.2
    have hy : expandBits (toCell y) ≤ 0x09249249 := ey.2
    have hz : expandBits (toCell z) ≤ 0x09249249 := ez.2
    omega

/-- C3: for every box, ray and precomputed reciprocal, `Intersect` computes
exactly the spec-side slab test: `tNear` is the maximum over the axes of the
crossing distance to the min-face where the reciprocal component is positive
and to the max-face otherwise (symmetrically `tFar` over the opposite
faces); the out-parameter receives `tNear` unconditionally (the first pair
component, also when the boolean is `false`); and the boolean is exactly
`(tNear <= tFar) && (0 < tFar) && (tNear < length)`. -/
theorem C3_intersect_refines_spec (b : AABB) (ray : MiniRay) (inv : Vec3)
    (length : EFloat) :
    b.Intersect ray inv length = specIntersect b ray inv length ∧
    (b.Intersect ray inv length).1 = specTNear b ray.Position inv ∧
    (b.Intersect ray inv length).2 =
      (EFloat.ble (specTNear b ray.Position inv) (specTFar b ray.Position inv) &&
       EFloat.blt (.fin 0) (specTFar b ray.Position inv) &&
       EFloat.blt (specTNear b ray.Position inv) length) :=
  ⟨rfl, rfl, rfl⟩

/-- C9 counterexample: with the box, the ray (its `Position` and `Direction`
fields both fixed) and the query length all identical, the result of
`Intersect` still changes with the thread-shared `Inverse` variable — here
between the stale value `(1,1,1)` left by another ray and the value
`(-1,-1,-1)` this ray's own direction would give — so the result is not a
function of the box and the ray's own fields alone, contradicting the
claim. -/
theorem C9_inverse_not_per_ray_counterexample :
    (AABB.Intersect ⟨⟨.fin 0, .fin 0, .fin 0⟩, ⟨.fin 1, .fin 1, .fin 1⟩⟩
      ⟨⟨.fin 5, .fin 5, .fin 5⟩, ⟨.fin (-1), .fin (-1), .fin (-1)⟩⟩
      ⟨.fin 1, .fin 1, .fin 1⟩ (.fin 100)).2 = false ∧
    (AABB.Intersect ⟨⟨.fin 0, .fin 0, .fin 0⟩, ⟨.fin 1, .fin 1, .fin 1⟩⟩
      ⟨⟨.fin 5, .fin 5, .fin 5⟩, ⟨.fin (-1), .fin (-1), .fin (-1)⟩⟩
      ⟨.fin (-1), .fin (-1), .fin (-1)⟩ (.fin 100)).2 = true := by
  have r5 : EFloat.roundFin (-5 : ℚ) = EFloat.fin (-5) :=
    EFloat.roundFin_num _ (-5) (by norm_num) (by norm_num)
  have r4 : EFloat.roundFin (-4 : ℚ) = EFloat.fin (-4) :=
    EFloat.roundFin_num _ (-4) (by norm_num) (by norm_num)
  have p4 : EFloat.roundFin (4 : ℚ) = EFloat.fin 4 :=
    EFloat.roundFin_num _ 4 (by norm_num) (by norm_num)
  have p5 : EFloat.roundFin (5 : ℚ) = EFloat.fin 5 :=
    EFloat.roundFin_num _ 5 (by norm_num) (by norm_num)
  constructor <;>
    norm_num [AABB.Intersect, AABB.tNear, AABB.tFar, EFloat.blt, EFloat.ble,
      EFloat.sub, EFloat.mul, glmMin, glmMax, r5, r4, p4, p5]

/-- C9 (amended): `MiniRay::Inverse` is a single `static thread_local`
vector shared by every ray in the thread, not a per-instance field; the
result of `Intersect` is a function of the box, the ray's `Position`, the
thread's current shared `Inverse` value and the length only — in
particular it is independent of the ray's own `Direction` field, so a ray
whose direction disagrees with the last-set shared `Inverse` is tested
against the wrong reciprocal. -/
theorem C9_intersect_ignores_direction (b : AABB) (pos dir1 dir2 inv : Vec3)
    (length : EFloat) :
    AABB.Intersect b ⟨pos, dir1⟩ inv length =
      AABB.Intersect b ⟨pos, dir2⟩ inv length :=
  rfl

/-! Per-axis slab facts. -/

lemma blt_fin_of_blt_zero {t : ℚ} (ht : t < 0) {len : EFloat}
    (hlen : EFloat.blt (.fin 0) len = true) :
    EFloat.blt (.fin t) len = true := by
  cases len <;> simp [EFloat.blt] at hlen ⊢
  linarith

lemma isFinite_iff {x : EFloat} : x.isFinite = true ↔ ∃ w : ℚ, x = .fin w := by
  cases x <;> simp [EFloat.isFinite]

/-- A finite product forces both factors finite (every special-value case
of IEEE multiplication yields NaN or an infinity). -/
lemma mul_fin_shape {x y : EFloat} {w : ℚ} (h : EFloat.mul x y = .fin w) :
    ∃ s r : ℚ, x = .fin s ∧ y = .fin r ∧ EFloat.roundFin (s * r) = .fin w := by
  cases x with
  | nan => cases y <;> exact EFloat.noConfusion h
  | neg_inf =>
    cases y with
    | nan => exact EFloat.noConfusion h
    | neg_inf => exact EFloat.noConfusion h
    | pos_inf => exact EFloat.noConfusion h
    | fin r =>
      simp only [EFloat.mul] at h
      split_ifs at h <;> exact EFloat.noConfusion h
  | pos_inf =>
    cases y with
    | nan => exact EFloat.noConfusion h
    | neg_inf => exact EFloat.noConfusion h
    | pos_inf => exact EFloat.noConfusion h
    | fin r =>
      simp only [EFloat.mul] at h
      split_ifs at h <;> exact EFloat.noConfusion h
  | fin s =>
    cases y with
    | nan => exact EFloat.noConfusion h
    | neg_inf =>
      simp only [EFloat.mul] at h
      split_ifs at h <;> exact EFloat.noConfusion h
    | pos_inf =>
      simp only [EFloat.mul] at h
      split_ifs at h <;> exact EFloat.noConfusion h
    | fin r => exact ⟨s, r, rfl, rfl, h⟩

lemma roundFin_fin_nonpos {q s : ℚ} (hq : q ≤ 0)
    (h : EFloat.roundFin q = .fin s) : s ≤ 0 := by
  rcases EFloat.roundFin_nonpos_shape hq with h' | ⟨t, ht, h'⟩ <;> rw [h'] at h
  · exact EFloat.noConfusion h
  · injection h with hh
    rwa [← hh]

lemma roundFin_fin_nonneg {q s : ℚ} (hq : 0 ≤ q)
    (h : EFloat.roundFin q = .fin s) : 0 ≤ s := by
  rcases EFloat.roundFin_nonneg_shape hq with h' | ⟨t, ht, h'⟩ <;> rw [h'] at h
  · exact EFloat.noConfusion h
  · injection h with hh
    rwa [← hh]

/-- A computed near-axis slab term that is finite and non-zero is negative
when the origin is strictly inside the slab, whatever the reciprocal
component is. -/
lemma nearTerm_neg {mn mx pos : ℚ} {inv : EFloat} (h1 : mn < pos)
    (h2 : pos < mx)
    (hfin : (specAxisNear (.fin mn) (.fin mx) (.fin pos) inv).isFinite = true)
    (hnz : specAxisNear (.fin mn) (.fin mx) (.fin pos) inv ≠ .fin 0) :
    ∃ w : ℚ, w < 0 ∧
      specAxisNear (.fin mn) (.fin mx) (.fin pos) inv = .fin w := by
  obtain ⟨w, hw⟩ := isFinite_iff.1 hfin
  refine ⟨w, ?_, hw⟩
  have hwnz : w ≠ 0 := fun h0 => hnz (h0 ▸ hw)
  unfold specAxisNear at hw
  by_cases hb : EFloat.blt (.fin 0) inv = true
  · rw [if_pos hb] at hw
    obtain ⟨s, r, hx, hy, hsr⟩ := mul_fin_shape hw
    have hs : s ≤ 0 := roundFin_fin_nonpos (by linarith : mn - pos ≤ 0) hx
    have hr : 0 < r := by
      rw [hy] at hb
      simpa [EFloat.blt] using hb
    have hw2 : w ≤ 0 :=
      roundFin_fin_nonpos (mul_nonpos_iff.2 (Or.inr ⟨hs, hr.le⟩)) hsr
    exact lt_of_le_of_ne hw2 hwnz
  · rw [if_neg hb] at hw
    obtain ⟨s, r, hx, hy, hsr⟩ := mul_fin_shape hw
    have hs : 0 ≤ s := roundFin_fin_nonneg (by linarith : (0:ℚ) ≤ mx - pos) hx
    have hr : r ≤ 0 := by
      rw [hy] at hb
      simpa [EFloat.blt, not_lt] using hb
    have hw2 : w ≤ 0 :=
      roundFin_fin_nonpos (mul_nonpos_iff.2 (Or.inl ⟨hs, hr⟩)) hsr
    exact lt_of_le_of_ne hw2 hwnz

/-- A computed far-axis slab term that is finite and non-zero is positive
when the origin is strictly inside the slab. -/
lemma farTerm_pos {mn mx pos : ℚ} {inv : EFloat} (h1 : mn < pos)
    (h2 : pos < mx)
    (hfin : (specAxisFar (.fin mn) (.fin mx) (.fin pos) inv).isFinite = true)
    (hnz : specAxisFar (.fin mn) (.fin mx) (.fin pos) inv ≠ .fin 0) :
    ∃ w : ℚ, 0 < w ∧
      specAxisFar (.fin mn) (.fin mx) (.fin pos) inv = .fin w := by
  obtain ⟨w, hw⟩ := isFinite_iff.1 hfin
  refine ⟨w, ?_, hw⟩
  have hwnz : w ≠ 0 := fun h0 => hnz (h0 ▸ hw)
  unfold specAxisFar at hw
  by_cases hb : EFloat.blt (.fin 0) inv = true
  · rw [if_pos hb] at hw
    obtain ⟨s, r, hx, hy, hsr⟩ := mul_fin_shape hw
    have hs : 0 ≤ s := roundFin_fin_nonneg (by linarith : (0:ℚ) ≤ mx - pos) hx
    have hr : 0 < r := by
      rw [hy] at hb
      simpa [EFloat.blt] using hb
    have hw2 : 0 ≤ w := roundFin_fin_nonneg (mul_nonneg hs hr.le) hsr
    exact lt_of_le_of_ne hw2 (fun h0 => hwnz h0.symm)
  · rw [if_neg hb] at hw
    obtain ⟨s, r, hx, hy, hsr⟩ := mul_fin_shape hw
    have hs : s ≤ 0 := roundFin_fin_nonpos (by linarith : mn - pos ≤ 0) hx
    have hr : r ≤ 0 := by
      rw [hy] at hb
      simpa [EFloat.blt, not_lt] using hb
    have hw2 : 0 ≤ w :=
      roundFin_fin_nonneg (mul_nonneg_iff.2 (Or.inr ⟨hs, hr⟩)) hsr
    exact lt_of_le_of_ne hw2 (fun h0 => hwnz h0.symm)

/-- C4 counterexample: the claim fails on the program because IEEE
multiplication underflows.  Box `[0, 2^-40]^3`, origin `(2^-41)^3`
strictly inside, direction `(2^120)^3` non-zero with exactly representable
reciprocal `2^-120`, positive query length: the far slab products
`2^-41 * 2^-120 = 2^-161` underflow to `+0`, so `tFar = +0`, the test
`0 < tFar` fails and `Intersect` returns `false` where the claim demands
`true`. -/
theorem C4_underflow_counterexample :
    ((0:ℚ) < (2:ℚ) ^ (-41:ℤ) ∧ (2:ℚ) ^ (-41:ℤ) < (2:ℚ) ^ (-40:ℤ)) ∧
    ((2:ℚ) ^ (120:ℤ) ≠ 0) ∧
    EFloat.blt (.fin 0) (.fin 10) = true ∧
    (AABB.Intersect
      ⟨⟨.fin 0, .fin 0, .fin 0⟩,
       ⟨.fin ((2:ℚ) ^ (-40:ℤ)), .fin ((2:ℚ) ^ (-40:ℤ)), .fin ((2:ℚ) ^ (-40:ℤ))⟩⟩
      ⟨⟨.fin ((2:ℚ) ^ (-41:ℤ)), .fin ((2:ℚ) ^ (-41:ℤ)), .fin ((2:ℚ) ^ (-41:ℤ))⟩,
       ⟨.fin ((2:ℚ) ^ (120:ℤ)), .fin ((2:ℚ) ^ (120:ℤ)), .fin ((2:ℚ) ^ (120:ℤ))⟩⟩
      ⟨EFloat.div (.fin 1) (.fin ((2:ℚ) ^ (120:ℤ))),
       EFloat.div (.fin 1) (.fin ((2:ℚ) ^ (120:ℤ))),
       EFloat.div (.fin 1) (.fin ((2:ℚ) ^ (120:ℤ)))⟩
      (.fin 10)).2 = false := by
  have hpos41 : (0:ℚ) < (2:ℚ) ^ (-41:ℤ) := by positivity
  have hlt : (2:ℚ) ^ (-41:ℤ) < (2:ℚ) ^ (-40:ℤ) :=
    zpow_lt_zpow_right₀ (by norm_num) (by norm_num)
  have hne : ((2:ℚ) ^ (120:ℤ)) ≠ 0 := by positivity
  refine ⟨⟨hpos41, hlt⟩, hne, by simp [EFloat.blt], ?_⟩
  have e_inv : EFloat.div (.fin 1) (.fin ((2:ℚ) ^ (120:ℤ))) =
      .fin ((2:ℚ) ^ (-120:ℤ)) := by
    have h1 : (1:ℚ) / (2:ℚ) ^ (120:ℤ) = (2:ℚ) ^ (-120:ℤ) := by
      rw [one_div, ← zpow_neg]
    simp only [EFloat.div]
    rw [if_neg hne, h1, EFloat.roundFin_one_zpow (-120) (by norm_num) (by norm_num)]
  have hblt : EFloat.blt (.fin 0) (.fin ((2:ℚ) ^ (-120:ℤ))) = true := by
    simp only [EFloat.blt, decide_eq_true_eq]
    positivity
  have e_sub_near : EFloat.sub (.fin 0) (.fin ((2:ℚ) ^ (-41:ℤ))) =
      .fin (-(2:ℚ) ^ (-41:ℤ)) := by
    show EFloat.roundFin ((0:ℚ) - (2:ℚ) ^ (-41:ℤ)) = _
    rw [zero_sub, EFloat.roundFin_neg_zpow (-41) (by norm_num) (by norm_num)]
  have e_mul_near : EFloat.mul (.fin (-(2:ℚ) ^ (-41:ℤ)))
      (.fin ((2:ℚ) ^ (-120:ℤ))) = .fin 0 := by
    show EFloat.roundFin (-(2:ℚ) ^ (-41:ℤ) * (2:ℚ) ^ (-120:ℤ)) = _
    rw [show -(2:ℚ) ^ (-41:ℤ) * (2:ℚ) ^ (-120:ℤ) = -(2:ℚ) ^ (-161:ℤ) by
      rw [neg_mul, ← zpow_add₀ (by norm_num : (2:ℚ) ≠ 0)]
      norm_num]
    exact EFloat.roundFin_neg_zpow_tiny (by norm_num)
  have e_sub_far : EFloat.sub (.fin ((2:ℚ) ^ (-40:ℤ))) (.fin ((2:ℚ) ^ (-41:ℤ))) =
      .fin ((2:ℚ) ^ (-41:ℤ)) := by
    show EFloat.roundFin ((2:ℚ) ^ (-40:ℤ) - (2:ℚ) ^ (-41:ℤ)) = _
    rw [show (2:ℚ) ^ (-40:ℤ) - (2:ℚ) ^ (-41:ℤ) = (2:ℚ) ^ (-41:ℤ) by
      rw [show (-40:ℤ) = -41 + 1 by norm_num,
        zpow_add₀ (by norm_num : (2:ℚ) ≠ 0)]
      ring]
    exact EFloat.roundFin_one_zpow (-41) (by norm_num) (by norm_num)
  have e_mul_far : EFloat.mul (.fin ((2:ℚ) ^ (-41:ℤ)))
      (.fin ((2:ℚ) ^ (-120:ℤ))) = .fin 0 := by
    show EFloat.roundFin ((2:ℚ) ^ (-41:ℤ) * (2:ℚ) ^ (-120:ℤ)) = _
    rw [show (2:ℚ) ^ (-41:ℤ) * (2:ℚ) ^ (-120:ℤ) = (2:ℚ) ^ (-161:ℤ) by
      rw [← zpow_add₀ (by norm_num : (2:ℚ) ≠ 0)]
      norm_num]
    exact EFloat.roundFin_zpow_tiny (by norm_num)
  have hN : AABB.tNear
      ⟨⟨.fin 0, .fin 0, .fin 0⟩,
       ⟨.fin ((2:ℚ) ^ (-40:ℤ)), .fin ((2:ℚ) ^ (-40:ℤ)), .fin ((2:ℚ) ^ (-40:ℤ))⟩⟩
      ⟨.fin ((2:ℚ) ^ (-41:ℤ)), .fin ((2:ℚ) ^ (-41:ℤ)), .fin ((2:ℚ) ^ (-41:ℤ))⟩
      ⟨EFloat.div (.fin 1) (.fin ((2:ℚ) ^ (120:ℤ))),
       EFloat.div (.fin 1) (.fin ((2:ℚ) ^ (120:ℤ))),
       EFloat.div (.fin 1) (.fin ((2:ℚ) ^ (120:ℤ)))⟩ = .fin 0 := by
    simp only [AABB.tNear, e_inv]
    rw [if_pos hblt, e_sub_near, e_mul_near, glmMax_fin, glmMax_fin]
    norm_num
  have hF : AABB.tFar
      ⟨⟨.fin 0, .fin 0, .fin 0⟩,
       ⟨.fin ((2:ℚ) ^ (-40:ℤ)), .fin ((2:ℚ) ^ (-40:ℤ)), .fin ((2:ℚ) ^ (-40:ℤ))⟩⟩
      ⟨.fin ((2:ℚ) ^ (-41:ℤ)), .fin ((2:ℚ) ^ (-41:ℤ)), .fin ((2:ℚ) ^ (-41:ℤ))⟩
      ⟨EFloat.div (.fin 1) (.fin ((2:ℚ) ^ (120:ℤ))),
       EFloat.div (.fin 1) (.fin ((2:ℚ) ^ (120:ℤ))),
       EFloat.div (.fin 1) (.fin ((2:ℚ) ^ (120:ℤ)))⟩ = .fin 0 := by
    simp only [AABB.tFar, e_inv]
    rw [if_pos hblt, e_sub_far, e_mul_far, glmMin_fin, glmMin_fin]
    norm_num
  show (EFloat.ble (AABB.tNear _ _ _) (AABB.tFar _ _ _) &&
    EFloat.blt (.fin 0) (AABB.tFar _ _ _) &&
    EFloat.blt (AABB.tNear _ _ _) (.fin 10)) = false
  rw [hN, hF]
  simp [EFloat.ble, EFloat.blt]

/-- C4 (amended): a ray whose origin is strictly inside the box, whose
direction is non-zero on all axes, and whose (thread-shared) reciprocal is
`1 / direction` component-wise, reports a hit with `tNear <= 0 < tFar`
stored into the out-parameter, for any positive query length — provided
none of the six per-axis slab products underflows to zero or leaves the
finite range (each computed near and far product is finite and non-zero);
and in the concrete miss case — box `[0,0,0]-[1,1,1]`, origin `(5,5,5)`,
direction `(1,0,0)` with reciprocal `(1, +inf, +inf)` obtained by IEEE
division by zero — `Intersect` returns `false` for every query length. -/
theorem C4_inside_hit_amended (m1 m2 m3 M1 M2 M3 p1 p2 p3 d1 d2 d3 : ℚ)
    (len : EFloat)
    (h1 : m1 < p1 ∧ p1 < M1) (h2 : m2 < p2 ∧ p2 < M2) (h3 : m3 < p3 ∧ p3 < M3)
    (hd1 : d1 ≠ 0) (hd2 : d2 ≠ 0) (hd3 : d3 ≠ 0)
    (hlen : EFloat.blt (.fin 0) len = true)
    (hn1 : (specAxisNear (.fin m1) (.fin M1) (.fin p1)
        (EFloat.div (.fin 1) (.fin d1))).isFinite = true ∧
      specAxisNear (.fin m1) (.fin M1) (.fin p1)
        (EFloat.div (.fin 1) (.fin d1)) ≠ .fin 0)
    (hn2 : (specAxisNear (.fin m2) (.fin M2) (.fin p2)
        (EFloat.div (.fin 1) (.fin d2))).isFinite = true ∧
      specAxisNear (.fin m2) (.fin M2) (.fin p2)
        (EFloat.div (.fin 1) (.fin d2)) ≠ .fin 0)
    (hn3 : (specAxisNear (.fin m3) (.fin M3) (.fin p3)
        (EFloat.div (.fin 1) (.fin d3))).isFinite = true ∧
      specAxisNear (.fin m3) (.fin M3) (.fin p3)
        (EFloat.div (.fin 1) (.fin d3)) ≠ .fin 0)
    (hf1 : (specAxisFar (.fin m1) (.fin M1) (.fin p1)
        (EFloat.div (.fin 1) (.fin d1))).isFinite = true ∧
      specAxisFar (.fin m1) (.fin M1) (.fin p1)
        (EFloat.div (.fin 1) (.fin d1)) ≠ .fin 0)
    (hf2 : (specAxisFar (.fin m2) (.fin M2) (.fin p2)
        (EFloat.div (.fin 1) (.fin d2))).isFinite = true ∧
      specAxisFar (.fin m2) (.fin M2) (.fin p2)
        (EFloat.div (.fin 1) (.fin d2)) ≠ .fin 0)
    (hf3 : (specAxisFar (.fin m3) (.fin M3) (.fin p3)
        (EFloat.div (.fin 1) (.fin d3))).isFinite = true ∧
      specAxisFar (.fin m3) (.fin M3) (.fin p3)
        (EFloat.div (.fin 1) (.fin d3)) ≠ .fin 0) :
    ((AABB.Intersect ⟨⟨.fin m1, .fin m2, .fin m3⟩, ⟨.fin M1, .fin M2, .fin M3⟩⟩
        ⟨⟨.fin p1, .fin p2, .fin p3⟩, ⟨.fin d1, .fin d2, .fin d3⟩⟩
        ⟨EFloat.div (.fin 1) (.fin d1), EFloat.div (.fin 1) (.fin d2),
          EFloat.div (.fin 1) (.fin d3)⟩ len).2 = true ∧
     (AABB.Intersect ⟨⟨.fin m1, .fin m2, .fin m3⟩, ⟨.fin M1, .fin M2, .fin M3⟩⟩
        ⟨⟨.fin p1, .fin p2, .fin p3⟩, ⟨.fin d1, .fin d2, .fin d3⟩⟩
        ⟨EFloat.div (.fin 1) (.fin d1), EFloat.div (.fin 1) (.fin d2),
          EFloat.div (.fin 1) (.fin d3)⟩ len).1 =
       AABB.tNear ⟨⟨.fin m1, .fin m2, .fin m3⟩, ⟨.fin M1, .fin M2, .fin M3⟩⟩
         ⟨.fin p1, .fin p2, .fin p3⟩
         ⟨EFloat.div (.fin 1) (.fin d1), EFloat.div (.fin 1) (.fin d2),
           EFloat.div (.fin 1) (.fin d3)⟩ ∧
     EFloat.ble
       (AABB.tNear ⟨⟨.fin m1, .fin m2, .fin m3⟩, ⟨.fin M1, .fin M2, .fin M3⟩⟩
         ⟨.fin p1, .fin p2, .fin p3⟩
         ⟨EFloat.div (.fin 1) (.fin d1), EFloat.div (.fin 1) (.fin d2),
           EFloat.div (.fin 1) (.fin d3)⟩) (.fin 0) = true ∧
     EFloat.blt (.fin 0)
       (AABB.tFar ⟨⟨.fin m1, .fin m2, .fin m3⟩, ⟨.fin M1, .fin M2, .fin M3⟩⟩
         ⟨.fin p1, .fin p2, .fin p3⟩
         ⟨EFloat.div (.fin 1) (.fin d1), EFloat.div (.fin 1) (.fin d2),
           EFloat.div (.fin 1) (.fin d3)⟩) = true) ∧
    ∀ len' : EFloat,
      (AABB.Intersect ⟨⟨.fin 0, .fin 0, .fin 0⟩, ⟨.fin 1, .fin 1, .fin 1⟩⟩
        ⟨⟨.fin 5, .fin 5, .fin 5⟩, ⟨.fin 1, .fin 0, .fin 0⟩⟩
        ⟨EFloat.div (.fin 1) (.fin 1), EFloat.div (.fin 1) (.fin 0),
          EFloat.div (.fin 1) (.fin 0)⟩ len').2 = false := by
  obtain ⟨qx, hqx, ex⟩ := nearTerm_neg h1.1 h1.2 hn1.1 hn1.2
  obtain ⟨qy, hqy, ey⟩ := nearTerm_neg h2.1 h2.2 hn2.1 hn2.2
  obtain ⟨qz, hqz, ez⟩ := nearTerm_neg h3.1 h3.2 hn3.1 hn3.2
  obtain ⟨rx, hrx, fx⟩ := farTerm_pos h1.1 h1.2 hf1.1 hf1.2
  obtain ⟨ry, hry, fy⟩ := farTerm_pos h2.1 h2.2 hf2.1 hf2.2
  obtain ⟨rz, hrz, fz⟩ := farTerm_pos h3.1 h3.2 hf3.1 hf3.2
  have hnear : AABB.tNear ⟨⟨.fin m1, .fin m2, .fin m3⟩, ⟨.fin M1, .fin M2, .fin M3⟩⟩
      ⟨.fin p1, .fin p2, .fin p3⟩
      ⟨EFloat.div (.fin 1) (.fin d1), EFloat.div (.fin 1) (.fin d2),
        EFloat.div (.fin 1) (.fin d3)⟩ = .fin (max qz (max qx qy)) := by
    show glmMax (specAxisNear (.fin m3) (.fin M3) (.fin p3)
        (EFloat.div (.fin 1) (.fin d3)))
      (glmMax (specAxisNear (.fin m1) (.fin M1) (.fin p1)
          (EFloat.div (.fin 1) (.fin d1)))
        (specAxisNear (.fin m2) (.fin M2) (.fin p2)
          (EFloat.div (.fin 1) (.fin d2)))) = _
    rw [ex, ey, ez, glmMax_fin, glmMax_fin]
  have hfar : AABB.tFar ⟨⟨.fin m1, .fin m2, .fin m3⟩, ⟨.fin M1, .fin M2, .fin M3⟩⟩
      ⟨.fin p1, .fin p2, .fin p3⟩
      ⟨EFloat.div (.fin 1) (.fin d1), EFloat.div (.fin 1) (.fin d2),
        EFloat.div (.fin 1) (.fin d3)⟩ = .fin (min rz (min rx ry)) := by
    show glmMin (specAxisFar (.fin m3) (.fin M3) (.fin p3)
        (EFloat.div (.fin 1) (.fin d3)))
      (glmMin (specAxisFar (.fin m1) (.fin M1) (.fin p1)
          (EFloat.div (.fin 1) (.fin d1)))
        (specAxisFar (.fin m2) (.fin M2) (.fin p2)
          (EFloat.div (.fin 1) (.fin d2)))) = _
    rw [fx, fy, fz, glmMin_fin, glmMin_fin]
  have hN : max qz (max qx qy) < 0 := by
    rw [max_lt_iff, max_lt_iff]
    exact ⟨hqz, hqx, hqy⟩
  have hF : 0 < min rz (min rx ry) := by
    rw [lt_min_iff, lt_min_iff]
    exact ⟨hrz, hrx, hry⟩
  constructor
  · refine ⟨?_, rfl, ?_, ?_⟩
    · show (EFloat.ble
          (AABB.tNear ⟨⟨.fin m1, .fin m2, .fin m3⟩, ⟨.fin M1, .fin M2, .fin M3⟩⟩
            ⟨.fin p1, .fin p2, .fin p3⟩
            ⟨EFloat.div (.fin 1) (.fin d1), EFloat.div (.fin 1) (.fin d2),
              EFloat.div (.fin 1) (.fin d3)⟩)
          (AABB.tFar ⟨⟨.fin m1, .fin m2, .fin m3⟩, ⟨.fin M1, .fin M2, .fin M3⟩⟩
            ⟨.fin p1, .fin p2, .fin p3⟩
            ⟨EFloat.div (.fin 1) (.fin d1), EFloat.div (.fin 1) (.fin d2),
              EFloat.div (.fin 1) (.fin d3)⟩) &&
        EFloat.blt (.fin 0)
          (AABB.tFar ⟨⟨.fin m1, .fin m2, .fin m3⟩, ⟨.fin M1, .fin M2, .fin M3⟩⟩
            ⟨.fin p1, .fin p2, .fin p3⟩
            ⟨EFloat.div (.fin 1) (.fin d1), EFloat.div (.fin 1) (.fin d2),
              EFloat.div (.fin 1) (.fin d3)⟩) &&
        EFloat.blt
          (AABB.tNear ⟨⟨.fin m1, .fin m2, .fin m3⟩, ⟨.fin M1, .fin M2, .fin M3⟩⟩
            ⟨.fin p1, .fin p2, .fin p3⟩
            ⟨EFloat.div (.fin 1) (.fin d1), EFloat.div (.fin 1) (.fin d2),
              EFloat.div (.fin 1) (.fin d3)⟩) len) = true
      rw [hnear, hfar]
      have hb1 : EFloat.ble (.fin (max qz (max qx qy)))
          (.fin (min rz (min rx ry))) = true := by
        simp only [EFloat.ble, decide_eq_true_eq]
        exact (hN.trans hF).le
      have hb2 : EFloat.blt (.fin 0) (.fin (min rz (min rx ry))) = true := by
        simp only [EFloat.blt, decide_eq_true_eq]
        exact hF
      have hb3 : EFloat.blt (.fin (max qz (max qx qy))) len = true :=
        blt_fin_of_blt_zero hN hlen
      rw [hb1, hb2, hb3]
      rfl
    · rw [hnear]
      simp only [EFloat.ble, decide_eq_true_eq]
      exact hN.le
    · rw [hfar]
      simp only [EFloat.blt, decide_eq_true_eq]
      exact hF
  · intro len'
    have r5 : EFloat.roundFin (-5 : ℚ) = EFloat.fin (-5) :=
      EFloat.roundFin_num _ (-5) (by norm_num) (by norm_num)
    have r4 : EFloat.roundFin (-4 : ℚ) = EFloat.fin (-4) :=
      EFloat.roundFin_num _ (-4) (by norm_num) (by norm_num)
    have hm : AABB.tNear ⟨⟨.fin 0, .fin 0, .fin 0⟩, ⟨.fin 1, .fin 1, .fin 1⟩⟩
        ⟨.fin 5, .fin 5, .fin 5⟩
        ⟨EFloat.div (.fin 1) (.fin 1), EFloat.div (.fin 1) (.fin 0),
          EFloat.div (.fin 1) (.fin 0)⟩ = .fin (-5) := by
      norm_num [AABB.tNear, EFloat.div, EFloat.blt, EFloat.sub, EFloat.mul,
        glmMax, r5, EFloat.roundFin_num (1:ℚ) 1 (by norm_num) (by norm_num)]
    have hM : AABB.tFar ⟨⟨.fin 0, .fin 0, .fin 0⟩, ⟨.fin 1, .fin 1, .fin 1⟩⟩
        ⟨.fin 5, .fin 5, .fin 5⟩
        ⟨EFloat.div (.fin 1) (.fin 1), EFloat.div (.fin 1) (.fin 0),
          EFloat.div (.fin 1) (.fin 0)⟩ = .neg_inf := by
      norm_num [AABB.tFar, EFloat.div, EFloat.blt, EFloat.sub, EFloat.mul,
        glmMin, r4, EFloat.roundFin_num (1:ℚ) 1 (by norm_num) (by norm_num)]
    show (EFloat.ble
        (AABB.tNear ⟨⟨.fin 0, .fin 0, .fin 0⟩, ⟨.fin 1, .fin 1, .fin 1⟩⟩
          ⟨.fin 5, .fin 5, .fin 5⟩
          ⟨EFloat.div (.fin 1) (.fin 1), EFloat.div (.fin 1) (.fin 0),
            EFloat.div (.fin 1) (.fin 0)⟩)
        (AABB.tFar ⟨⟨.fin 0, .fin 0, .fin 0⟩, ⟨.fin 1, .fin 1, .fin 1⟩⟩
          ⟨.fin 5, .fin 5, .fin 5⟩
          ⟨EFloat.div (.fin 1) (.fin 1), EFloat.div (.fin 1) (.fin 0),
            EFloat.div (.fin 1) (.fin 0)⟩) &&
      EFloat.blt (.fin 0)
        (AABB.tFar ⟨⟨.fin 0, .fin 0, .fin 0⟩, ⟨.fin 1, .fin 1, .fin 1⟩⟩
          ⟨.fin 5, .fin 5, .fin 5⟩
          ⟨EFloat.div (.fin 1) (.fin 1), EFloat.div (.fin 1) (.fin 0),
            EFloat.div (.fin 1) (.fin 0)⟩) &&
      EFloat.blt
        (AABB.tNear ⟨⟨.fin 0, .fin 0, .fin 0⟩, ⟨.fin 1, .fin 1, .fin 1⟩⟩
          ⟨.fin 5, .fin 5, .fin 5⟩
          ⟨EFloat.div (.fin 1) (.fin 1), EFloat.div (.fin 1) (.fin 0),
            EFloat.div (.fin 1) (.fin 0)⟩) len') = false
    rw [hm, hM]
    simp [EFloat.ble]

/-- Witness for the amended C4 theorem: unit-scale box `[0,2]^3`, origin
`(1,1,1)` strictly inside, direction `(1,1,1)`, reciprocal `1/1` computed by
the IEEE division, query length `10`; every slab product evaluates to the
finite non-zero `-1` (near) and `1` (far) and the intersection test
reports a hit. -/
theorem C4_inside_hit_amended_witness :
    ((0:ℚ) < 1 ∧ (1:ℚ) < 2) ∧
    (1:ℚ) ≠ 0 ∧
    EFloat.blt (.fin 0) (.fin 10) = true ∧
    ((specAxisNear (.fin 0) (.fin 2) (.fin 1)
        (EFloat.div (.fin 1) (.fin 1))).isFinite = true ∧
      specAxisNear (.fin 0) (.fin 2) (.fin 1)
        (EFloat.div (.fin 1) (.fin 1)) ≠ .fin 0) ∧
    ((specAxisFar (.fin 0) (.fin 2) (.fin 1)
        (EFloat.div (.fin 1) (.fin 1))).isFinite = true ∧
      specAxisFar (.fin 0) (.fin 2) (.fin 1)
        (EFloat.div (.fin 1) (.fin 1)) ≠ .fin 0) ∧
    (AABB.Intersect ⟨⟨.fin 0, .fin 0, .fin 0⟩, ⟨.fin 2, .fin 2, .fin 2⟩⟩
      ⟨⟨.fin 1, .fin 1, .fin 1⟩, ⟨.fin 1, .fin 1, .fin 1⟩⟩
      ⟨EFloat.div (.fin 1) (.fin 1), EFloat.div (.fin 1) (.fin 1),
        EFloat.div (.fin 1) (.fin 1)⟩ (.fin 10)).2 = true := by
  have r1 : EFloat.roundFin (1 : ℚ) = .fin 1 :=
    EFloat.roundFin_num _ 1 (by norm_num) (by norm_num)
  have rn : EFloat.roundFin (-1 : ℚ) = .fin (-1) :=
    EFloat.roundFin_num _ (-1) (by norm_num) (by norm_num)
  have e_div : EFloat.div (.fin 1) (.fin (1:ℚ)) = .fin 1 := by
    simp only [EFloat.div]
    rw [if_neg (by norm_num : ¬((1:ℚ) = 0)), show (1:ℚ)/1 = 1 by norm_num, r1]
  have e_near : specAxisNear (.fin 0) (.fin 2) (.fin 1) (.fin (1:ℚ)) =
      .fin (-1) := by
    norm_num [specAxisNear, EFloat.blt, EFloat.sub, EFloat.mul, rn]
  have e_far : specAxisFar (.fin 0) (.fin 2) (.fin 1) (.fin (1:ℚ)) =
      .fin 1 := by
    norm_num [specAxisFar, EFloat.blt, EFloat.sub, EFloat.mul, r1]
  have hn : (specAxisNear (.fin 0) (.fin 2) (.fin 1)
        (EFloat.div (.fin 1) (.fin 1))).isFinite = true ∧
      specAxisNear (.fin 0) (.fin 2) (.fin 1)
        (EFloat.div (.fin 1) (.fin 1)) ≠ .fin 0 := by
    rw [e_div, e_near]
    exact ⟨rfl, by simp⟩
  have hf : (specAxisFar (.fin 0) (.fin 2) (.fin 1)
        (EFloat.div (.fin 1) (.fin 1))).isFinite = true ∧
      specAxisFar (.fin 0) (.fin 2) (.fin 1)
        (EFloat.div (.fin 1) (.fin 1)) ≠ .fin 0 := by
    rw [e_div, e_far]
    exact ⟨rfl, by simp⟩
  have hlen : EFloat.blt (.fin 0) (.fin (10:ℚ)) = true := by
    norm_num [EFloat.blt]
  refine ⟨⟨by norm_num, by norm_num⟩, by norm_num, hlen, hn, hf, ?_⟩
  exact ((C4_inside_hit_amended 0 0 0 2 2 2 1 1 1 1 1 1 (.fin 10)
    ⟨by norm_num, by norm_num⟩ ⟨by norm_num, by norm_num⟩
    ⟨by norm_num, by norm_num⟩ (by norm_num) (by norm_num) (by norm_num)
    hlen hn hn hn hf hf hf).1).1

/-! Normalization. -/

/-- Dividing by the subtraction of a value from itself never produces a
finite result: the denominator is `0` (finite case, giving `NaN` or a
signed infinity) or `NaN` (infinite or `NaN` case). -/
lemma div_sub_self_not_finite (u v : EFloat) :
    EFloat.isFinite (EFloat.div u (EFloat.sub v v)) = false := by
  have hz : EFloat.sub v v = .fin 0 ∨ EFloat.sub v v = .nan := by
    cases v with
    | nan => exact Or.inr rfl
    | neg_inf => exact Or.inr rfl
    | pos_inf => exact Or.inr rfl
    | fin q =>
      left
      show EFloat.roundFin (q - q) = .fin 0
      rw [sub_self, EFloat.roundFin_zero]
  rcases hz with h | h
  · rw [h]
    cases u with
    | nan => rfl
    | neg_inf => simp [EFloat.div, EFloat.isFinite]
    | pos_inf => simp [EFloat.div, EFloat.isFinite]
    | fin q =>
      simp only [EFloat.div, if_pos (rfl : (0:ℚ) = 0)]
      split_ifs <;> rfl
  · rw [h]
    cases u <;> rfl

/-- C10 counterexample: the claim fails on the program because IEEE
subtraction overflows.  The box `Min = (-FLT_MAX)^3`, `Max = (FLT_MAX)^3`
has `Min < Max` on all three axes and the point `p = Max` lies inside it,
yet `p - Min = Max - Min = 2 * FLT_MAX` overflows to `+inf`, so `Nomalize`
computes `inf / inf = NaN`: a non-finite component where the claim demands
a finite value in `[0, 1]`. -/
theorem C10_overflow_counterexample :
    (-fltMax < fltMax ∧ -fltMax ≤ fltMax) ∧
    EFloat.isFinite ((AABB.Nomalize
      ⟨⟨.fin (-fltMax), .fin (-fltMax), .fin (-fltMax)⟩,
       ⟨.fin fltMax, .fin fltMax, .fin fltMax⟩⟩
      ⟨.fin fltMax, .fin fltMax, .fin fltMax⟩).x) = false := by
  have hflt : (0:ℚ) < fltMax := by norm_num [fltMax]
  refine ⟨⟨by linarith, by linarith⟩, ?_⟩
  have hsub : EFloat.sub (.fin fltMax) (.fin (-fltMax)) = .pos_inf := by
    show EFloat.roundFin (fltMax - -fltMax) = _
    refine EFloat.roundFin_big ?_
    rw [show (2:ℚ) ^ (128:ℤ) = ((2 ^ 128 : ℕ) : ℚ) by norm_num]
    norm_num [fltMax]
  show EFloat.isFinite (EFloat.div (EFloat.sub (.fin fltMax) (.fin (-fltMax)))
    (EFloat.sub (.fin fltMax) (.fin (-fltMax)))) = false
  rw [hsub]
  rfl

/-- One axis of the amended normalization bound: when the slab extent is
at least the smallest positive float and at most FLT_MAX, the computed
component is a finite value in `[0, 1]`. -/
lemma nomalize_axis {m M q : ℚ} (h1 : m ≤ q) (h2 : q ≤ M)
    (hlo : (2:ℚ) ^ (-149:ℤ) ≤ M - m) (hhi : M - m ≤ fltMax) :
    ∃ w : ℚ, 0 ≤ w ∧ w ≤ 1 ∧
      EFloat.div (EFloat.sub (.fin q) (.fin m)) (EFloat.sub (.fin M) (.fin m)) =
        .fin w := by
  have idlo : EFloat.roundFin ((2:ℚ) ^ (-149:ℤ)) = .fin ((2:ℚ) ^ (-149:ℤ)) :=
    EFloat.roundFin_one_zpow (-149) (by norm_num) (by norm_num)
  have idhi : EFloat.roundFin fltMax = .fin fltMax := by
    have h := EFloat.roundFin_rep (2 ^ 24 - 1) 104 (by norm_num) (by norm_num)
      (by
        rw [show |((2 ^ 24 - 1 : ℤ) : ℚ)| = ((2 ^ 24 - 1 : ℤ) : ℚ) from
          abs_of_pos (by norm_num)]
        rw [show (2:ℚ) ^ (128:ℤ) = ((2 ^ 128 : ℕ) : ℚ) by norm_num,
          show (2:ℚ) ^ (104:ℤ) = ((2 ^ 104 : ℕ) : ℚ) by norm_num]
        push_cast
        norm_num)
    rw [show fltMax = ((2 ^ 24 - 1 : ℤ) : ℚ) * (2:ℚ) ^ (104:ℤ) by
      rw [show (2:ℚ) ^ (104:ℤ) = ((2 ^ 104 : ℕ) : ℚ) by norm_num]
      push_cast
      norm_num [fltMax]]
    exact h
  have hble1 : EFloat.ble (.fin ((2:ℚ) ^ (-149:ℤ))) (EFloat.roundFin (M - m)) = true := by
    rw [← idlo]
    exact EFloat.roundFin_mono hlo
  have hble2 : EFloat.ble (EFloat.roundFin (M - m)) (.fin fltMax) = true := by
    rw [← idhi]
    exact EFloat.roundFin_mono hhi
  obtain ⟨w2, hw2a, hw2b, hw2⟩ := EFloat.ble_squeeze hble1 hble2
  have hw2pos : 0 < w2 := lt_of_lt_of_le (by positivity) hw2a
  have hble3 : EFloat.ble (.fin 0) (EFloat.roundFin (q - m)) = true := by
    rw [← EFloat.roundFin_zero]
    exact EFloat.roundFin_mono (by linarith)
  have hble4 : EFloat.ble (EFloat.roundFin (q - m)) (.fin w2) = true := by
    rw [← hw2]
    exact EFloat.roundFin_mono (by linarith : q - m ≤ M - m)
  obtain ⟨w1, hw1a, hw1b, hw1⟩ := EFloat.ble_squeeze hble3 hble4
  have hq : EFloat.div (.fin w1) (.fin w2) = EFloat.roundFin (w1 / w2) := by
    simp [EFloat.div, ne_of_gt hw2pos]
  have hquot1 : (0:ℚ) ≤ w1 / w2 := div_nonneg hw1a hw2pos.le
  have hquot2 : w1 / w2 ≤ 1 := (div_le_one hw2pos).2 hw1b
  have id1 : EFloat.roundFin (1:ℚ) = .fin 1 :=
    EFloat.roundFin_num _ 1 (by norm_num) (by norm_num)
  have hble5 : EFloat.ble (.fin 0) (EFloat.roundFin (w1 / w2)) = true := by
    rw [← EFloat.roundFin_zero]
    exact EFloat.roundFin_mono hquot1
  have hble6 : EFloat.ble (EFloat.roundFin (w1 / w2)) (.fin 1) = true := by
    rw [← id1]
    exact EFloat.roundFin_mono hquot2
  obtain ⟨w, hwa, hwb, hw⟩ := EFloat.ble_squeeze hble5 hble6
  refine ⟨w, hwa, hwb, ?_⟩
  show EFloat.div (EFloat.roundFin (q - m)) (EFloat.roundFin (M - m)) = .fin w
  rw [hw1, hw2, hq, hw]

/-- C10 (amended): `Nomalize` is the unguarded component-wise
`(p - Min) / (Max - Min)`: on a box with `Min < Max` on all axes whose
per-axis extent neither underflows (at least the smallest positive float
`2^-149`) nor overflows (at most FLT_MAX) the IEEE subtraction, and a
point inside it, every component of the result is a finite value in
`[0, 1]`; and on any box with `Min = Max` on an axis the result's
component on that axis is non-finite (NaN or a signed infinity), for
every point. -/
theorem C10_nomalize_amended (b : AABB) (p : Vec3)
    (m1 m2 m3 M1 M2 M3 q1 q2 q3 : ℚ)
    (hb1 : b.Min.x = .fin m1) (hb2 : b.Min.y = .fin m2) (hb3 : b.Min.z = .fin m3)
    (hB1 : b.Max.x = .fin M1) (hB2 : b.Max.y = .fin M2) (hB3 : b.Max.z = .fin M3)
    (hp1 : p.x = .fin q1) (hp2 : p.y = .fin q2) (hp3 : p.z = .fin q3)
    (hin : (m1 ≤ q1 ∧ q1 ≤ M1) ∧ (m2 ≤ q2 ∧ q2 ≤ M2) ∧ (m3 ≤ q3 ∧ q3 ≤ M3))
    (hrange : ((2:ℚ) ^ (-149:ℤ) ≤ M1 - m1 ∧ M1 - m1 ≤ fltMax) ∧
      ((2:ℚ) ^ (-149:ℤ) ≤ M2 - m2 ∧ M2 - m2 ≤ fltMax) ∧
      ((2:ℚ) ^ (-149:ℤ) ≤ M3 - m3 ∧ M3 - m3 ≤ fltMax)) :
    ((∃ w, 0 ≤ w ∧ w ≤ 1 ∧ (b.Nomalize p).x = .fin w) ∧
     (∃ w, 0 ≤ w ∧ w ≤ 1 ∧ (b.Nomalize p).y = .fin w) ∧
     (∃ w, 0 ≤ w ∧ w ≤ 1 ∧ (b.Nomalize p).z = .fin w)) ∧
    (∀ (b' : AABB) (p' : Vec3),
      (b'.Min.x = b'.Max.x → (b'.Nomalize p').x.isFinite = false) ∧
      (b'.Min.y = b'.Max.y → (b'.Nomalize p').y.isFinite = false) ∧
      (b'.Min.z = b'.Max.z → (b'.Nomalize p').z.isFinite = false)) := by
  constructor
  · refine ⟨?_, ?_, ?_⟩
    · have h := nomalize_axis hin.1.1 hin.1.2 hrange.1.1 hrange.1.2
      simpa only [AABB.Nomalize, vDiv, vSub, hb1, hB1, hp1] using h
    · have h := nomalize_axis hin.2.1.1 hin.2.1.2 hrange.2.1.1 hrange.2.1.2
      simpa only [AABB.Nomalize, vDiv, vSub, hb2, hB2, hp2] using h
    · have h := nomalize_axis hin.2.2.1 hin.2.2.2 hrange.2.2.1 hrange.2.2.2
      simpa only [AABB.Nomalize, vDiv, vSub, hb3, hB3, hp3] using h
  · intro b' p'
    refine ⟨fun h => ?_, fun h => ?_, fun h => ?_⟩ <;>
      [ (show EFloat.isFinite (EFloat.div (EFloat.sub p'.x b'.Min.x)
          (EFloat.sub b'.Max.x b'.Min.x)) = false);
        (show EFloat.isFinite (EFloat.div (EFloat.sub p'.y b'.Min.y)
          (EFloat.sub b'.Max.y b'.Min.y)) = false);
        (show EFloat.isFinite (EFloat.div (EFloat.sub p'.z b'.Min.z)
          (EFloat.sub b'.Max.z b'.Min.z)) = false) ] <;>
      rw [← h] <;> exact div_sub_self_not_finite _ _

/-- Witness for the amended C10: the unit box and the corner point
`(1, 1, 1)`. -/
theorem C10_nomalize_amended_witness :
    ((⟨⟨.fin 0, .fin 0, .fin 0⟩, ⟨.fin 1, .fin 1, .fin 1⟩⟩ : AABB).Min.x = .fin 0) ∧
    ((0:ℚ) ≤ 1 ∧ (1:ℚ) ≤ 1) ∧
    ((2:ℚ) ^ (-149:ℤ) ≤ (1:ℚ) - 0 ∧ (1:ℚ) - 0 ≤ fltMax) ∧
    (((∃ w, 0 ≤ w ∧ w ≤ 1 ∧
        (AABB.Nomalize ⟨⟨.fin 0, .fin 0, .fin 0⟩, ⟨.fin 1, .fin 1, .fin 1⟩⟩
          ⟨.fin 1, .fin 1, .fin 1⟩).x = .fin w) ∧
      (∃ w, 0 ≤ w ∧ w ≤ 1 ∧
        (AABB.Nomalize ⟨⟨.fin 0, .fin 0, .fin 0⟩, ⟨.fin 1, .fin 1, .fin 1⟩⟩
          ⟨.fin 1, .fin 1, .fin 1⟩).y = .fin w) ∧
      (∃ w, 0 ≤ w ∧ w ≤ 1 ∧
        (AABB.Nomalize ⟨⟨.fin 0, .fin 0, .fin 0⟩, ⟨.fin 1, .fin 1, .fin 1⟩⟩
          ⟨.fin 1, .fin 1, .fin 1⟩).z = .fin w)) ∧
     ∀ (b' : AABB) (p' : Vec3),
       (b'.Min.x = b'.Max.x → (b'.Nomalize p').x.isFinite = false) ∧
       (b'.Min.y = b'.Max.y → (b'.Nomalize p').y.isFinite = false) ∧
       (b'.Min.z = b'.Max.z → (b'.Nomalize p').z.isFinite = false)) := by
  have hlo : (2:ℚ) ^ (-149:ℤ) ≤ (1:ℚ) - 0 := by
    calc (2:ℚ) ^ (-149:ℤ) ≤ (2:ℚ) ^ (0:ℤ) :=
        zpow_le_of_le (by norm_num) (by norm_num)
      _ = 1 - 0 := by norm_num
  have hhi : (1:ℚ) - 0 ≤ fltMax := by norm_num [fltMax]
  exact ⟨rfl, ⟨by norm_num, by norm_num⟩, ⟨hlo, hhi⟩,
    C10_nomalize_amended ⟨⟨.fin 0, .fin 0, .fin 0⟩, ⟨.fin 1, .fin 1, .fin 1⟩⟩
      ⟨.fin 1, .fin 1, .fin 1⟩ 0 0 0 1 1 1 1 1 1
      rfl rfl rfl rfl rfl rfl rfl rfl rfl
      ⟨⟨by norm_num, by norm_num⟩, ⟨by norm_num, by norm_num⟩,
        ⟨by norm_num, by norm_num⟩⟩
      ⟨⟨hlo, hhi⟩, ⟨hlo, hhi⟩, ⟨hlo, hhi⟩⟩⟩

/-! Termination and postcondition of the compare-exchange retry loops. -/

/-- Under an always-spurious oracle the `update_min` retry loop never
exits: the slot constantly holds `1`, the argument is `0`, and every
compare-exchange attempt fails spuriously, so the loop exhausts any fuel
bound. -/
lemma casMinLoop_spurious_none :
    ∀ fuel i, casMinLoop 0 fuel 1 (fun _ => 1) (fun _ => true) i = none := by
  intro fuel
  induction fuel with
  | zero => intro i; rfl
  | succ n ihn =>
    intro i
    show casMinLoop 0 (n + 1) 1 (fun _ => 1) (fun _ => true) i = none
    rw [show casMinLoop 0 (n + 1) 1 (fun _ => 1) (fun _ => true) i =
      casMinLoop 0 n 1 (fun _ => 1) (fun _ => true) (i + 1) by
        simp [casMinLoop]]
    exact ihn (i + 1)

/-- C8 counterexample: with the weak compare-exchange of the source
(`compare_exchange_weak` may fail spuriously with the slot unchanged),
the retry loop of `update_min` does not terminate unconditionally: with
the slot holding `1`, the argument `0` and every attempt failing
spuriously, the loop runs forever. -/
theorem C8_weak_cas_counterexample :
    minLoopDiverges 0 1 (fun _ => 1) (fun _ => true) 1 :=
  fun fuel => casMinLoop_spurious_none fuel 1

/-- The `update_min` retry loop terminates, with a result at least as
extreme as both the initial load and the argument, whenever the slot
moves only monotonically downward and the spurious failures of the weak
compare-exchange do not persist forever (after every attempt there is a
later non-spurious attempt). -/
lemma casMinLoop_total (value : Nat) (f : Nat → Nat) (sp : Nat → Bool)
    (hf : ∀ j, f (j + 1) ≤ f j)
    (hsp : ∀ i, ∃ j, i ≤ j ∧ sp j = false) :
    ∀ old, ∀ i, f i ≤ old →
      ∃ fuel r, casMinLoop value fuel old f sp i = some r ∧
        r ≤ old ∧ r ≤ value := by
  intro old
  induction old using Nat.strong_induction_on with
  | _ old ih =>
    have inner : ∀ b i j, i ≤ j → sp j = false → j - i ≤ b → f i ≤ old →
        ∃ fuel r, casMinLoop value fuel old f sp i = some r ∧
          r ≤ old ∧ r ≤ value := by
      intro b
      induction b with
      | zero =>
        intro i j hij hj hb hfi
        have hji : j = i := by omega
        subst hji
        by_cases hle : old ≤ value
        · exact ⟨1, f j, by simp [casMinLoop, hle], hfi, le_trans hfi hle⟩
        · by_cases heq : f j = old
          · refine ⟨1, value, ?_, by omega, le_rfl⟩
            simp [casMinLoop, hle, heq, hj]
          · have hlt : f j < old := lt_of_le_of_ne hfi heq
            obtain ⟨fuel, r, hr, h1, h2⟩ := ih (f j) hlt (j + 1) (hf j)
            refine ⟨fuel + 1, r, ?_, by omega, h2⟩
            simp [casMinLoop, hle, heq, hr]
      | succ b ihb =>
        intro i j hij hj hb hfi
        by_cases hle : old ≤ value
        · exact ⟨1, f i, by simp [casMinLoop, hle], hfi, le_trans hfi hle⟩
        · by_cases hcas : f i = old ∧ sp i = false
          · refine ⟨1, value, ?_, by omega, le_rfl⟩
            simp [casMinLoop, hle, hcas.1, hcas.2]
          · by_cases heq : f i = old
            · have hspi : sp i ≠ false := fun h0 => hcas ⟨heq, h0⟩
              have hji : i + 1 ≤ j := by
                rcases eq_or_lt_of_le hij with h0 | h0
                · exact absurd (h0 ▸ hj) hspi
                · omega
              obtain ⟨fuel, r, hr, h1, h2⟩ :=
                ihb (i + 1) j hji hj (by omega) (le_trans (hf i) hfi)
              refine ⟨fuel + 1, r, ?_, h1, h2⟩
              rw [show casMinLoop value (fuel + 1) old f sp i =
                casMinLoop value fuel (f i) f sp (i + 1) by
                  simp [casMinLoop, hle, hcas]]
              rw [heq]
              exact hr
            · have hlt : f i < old := lt_of_le_of_ne hfi heq
              obtain ⟨fuel, r, hr, h1, h2⟩ := ih (f i) hlt (i + 1) (hf i)
              refine ⟨fuel + 1, r, ?_, by omega, h2⟩
              rw [show casMinLoop value (fuel + 1) old f sp i =
                casMinLoop value fuel (f i) f sp (i + 1) by
                  simp [casMinLoop, hle, hcas]]
              exact hr
    intro i hfi
    obtain ⟨j, hij, hj⟩ := hsp i
    exact inner (j - i) i j hij hj le_rfl hfi

/-- Symmetric termination for the `update_max` retry loop: the slot moves
only monotonically upward, so `value - old_value` is a decreasing measure
across genuine failures. -/
lemma casMaxLoop_total (value : Nat) (f : Nat → Nat) (sp : Nat → Bool)
    (hf : ∀ j, f j ≤ f (j + 1))
    (hsp : ∀ i, ∃ j, i ≤ j ∧ sp j = false) :
    ∀ old i, old ≤ f i →
      ∃ fuel r, casMaxLoop value fuel old f sp i = some r ∧
        old ≤ r ∧ value ≤ r := by
  have H : ∀ k old, value - old ≤ k → ∀ i, old ≤ f i →
      ∃ fuel r, casMaxLoop value fuel old f sp i = some r ∧
        old ≤ r ∧ value ≤ r := by
    intro k
    induction k using Nat.strong_induction_on with
    | _ k ihk =>
      intro old hk
      have inner : ∀ b i j, i ≤ j → sp j = false → j - i ≤ b → old ≤ f i →
          ∃ fuel r, casMaxLoop value fuel old f sp i = some r ∧
            old ≤ r ∧ value ≤ r := by
        intro b
        induction b with
        | zero =>
          intro i j hij hj hb hfi
          have hji : j = i := by omega
          subst hji
          by_cases hle : value ≤ old
          · exact ⟨1, f j, by simp [casMaxLoop, hle], hfi, le_trans hle hfi⟩
          · by_cases heq : f j = old
            · refine ⟨1, value, ?_, by omega, le_rfl⟩
              simp [casMaxLoop, hle, heq, hj]
            · have hlt : old < f j := lt_of_le_of_ne hfi (fun h0 => heq h0.symm)
              obtain ⟨fuel, r, hr, h1, h2⟩ :=
                ihk (value - f j) (by omega) (f j) le_rfl (j + 1) (hf j)
              refine ⟨fuel + 1, r, ?_, by omega, h2⟩
              simp [casMaxLoop, hle, heq, hr]
        | succ b ihb =>
          intro i j hij hj hb hfi
          by_cases hle : value ≤ old
          · exact ⟨1, f i, by simp [casMaxLoop, hle], hfi, le_trans hle hfi⟩
          · by_cases hcas : f i = old ∧ sp i = false
            · refine ⟨1, value, ?_, by omega, le_rfl⟩
              simp [casMaxLoop, hle, hcas.1, hcas.2]
            · by_cases heq : f i = old
              · have hspi : sp i ≠ false := fun h0 => hcas ⟨heq, h0⟩
                have hji : i + 1 ≤ j := by
                  rcases eq_or_lt_of_le hij with h0 | h0
                  · exact absurd (h0 ▸ hj) hspi
                  · omega
                obtain ⟨fuel, r, hr, h1, h2⟩ :=
                  ihb (i + 1) j hji hj (by omega) (le_trans hfi (hf i))
                refine ⟨fuel + 1, r, ?_, h1, h2⟩
                rw [show casMaxLoop value (fuel + 1) old f sp i =
                  casMaxLoop value fuel (f i) f sp (i + 1) by
                    simp [casMaxLoop, hle, hcas]]
                rw [heq]
                exact hr
              · have hlt : old < f i := lt_of_le_of_ne hfi (fun h0 => heq h0.symm)
                obtain ⟨fuel, r, hr, h1, h2⟩ :=
                  ihk (value - f i) (by omega) (f i) le_rfl (i + 1) (hf i)
                refine ⟨fuel + 1, r, ?_, by omega, h2⟩
                rw [show casMaxLoop value (fuel + 1) old f sp i =
                  casMaxLoop value fuel (f i) f sp (i + 1) by
                    simp [casMaxLoop, hle, hcas]]
                exact hr
      intro i hfi
      obtain ⟨j, hij, hj⟩ := hsp i
      exact inner (j - i) i j hij hj le_rfl hfi
  intro old i h
  exact H (value - old) old le_rfl i h

lemma update_min_run_const (c value : Nat) :
    update_min_run (fun _ => c) (fun _ => false) value 2 =
      some (update_min c value) := by
  by_cases hc : c ≤ value
  · have h2 : ¬(value < c) := by omega
    simp [update_min_run, casMinLoop, update_min, hc, h2]
  · have h2 : value < c := by omega
    simp [update_min_run, casMinLoop, update_min, hc, h2]

lemma update_max_run_const (c value : Nat) :
    update_max_run (fun _ => c) (fun _ => false) value 2 =
      some (update_max c value) := by
  by_cases hc : value ≤ c
  · have h2 : ¬(c < value) := by omega
    simp [update_max_run, casMaxLoop, update_max, hc, h2]
  · have h2 : c < value := by omega
    simp [update_max_run, casMaxLoop, update_max, hc, h2]

/-- C8 (amended): under the faithful weak-CAS model — in which a
compare-exchange may fail spuriously with the slot unchanged — the retry
loops of `update_min` and `update_max` terminate for every stored value
and argument provided the spurious failures do not persist forever (after
every attempt some later attempt is non-spurious) and the slot moves only
monotonically toward the extreme; the exit value is then at least as
extreme as both the initially loaded value and the argument, and without
interference and without spurious failure the stored value on exit is
exactly the unsigned minimum (respectively maximum) of the previously
stored value and the argument. -/
theorem C8_cas_loops_amended (value : Nat) (f g : Nat → Nat) (sp : Nat → Bool)
    (hf : ∀ j, f (j + 1) ≤ f j) (hg : ∀ j, g j ≤ g (j + 1))
    (hsp : ∀ i, ∃ j, i ≤ j ∧ sp j = false) :
    (∃ fuel r, update_min_run f sp value fuel = some r ∧
      r ≤ f 0 ∧ r ≤ value) ∧
    (∀ c, update_min_run (fun _ => c) (fun _ => false) value 2 =
        some (update_min c value) ∧
      update_min c value = min c value) ∧
    (∃ fuel r, update_max_run g sp value fuel = some r ∧
      g 0 ≤ r ∧ value ≤ r) ∧
    (∀ c, update_max_run (fun _ => c) (fun _ => false) value 2 =
        some (update_max c value) ∧
      update_max c value = max c value) := by
  refine ⟨?_, fun c => ⟨update_min_run_const c value, ?_⟩,
    ?_, fun c => ⟨update_max_run_const c value, ?_⟩⟩
  · obtain ⟨fuel, r, h⟩ := casMinLoop_total value f sp hf hsp (f 0) 1 (hf 0)
    exact ⟨fuel, r, h⟩
  · unfold update_min
    split <;> omega
  · obtain ⟨fuel, r, h⟩ := casMaxLoop_total value g sp hg hsp (g 0) 1 (hg 0)
    exact ⟨fuel, r, h⟩
  · unfold update_max
    split <;> omega

/-- Witness for the amended C8 with the constant trace at `5`, no spurious
failures, and argument `3`. -/
theorem C8_cas_loops_amended_witness :
    (∀ j : Nat, (fun _ : Nat => 5) (j + 1) ≤ (fun _ : Nat => 5) j) ∧
    (∀ i : Nat, ∃ j, i ≤ j ∧ (fun _ : Nat => false) j = false) ∧
    ((∃ fuel r, update_min_run (fun _ => 5) (fun _ => false) 3 fuel = some r ∧
       r ≤ 5 ∧ r ≤ 3) ∧
     (∀ c, update_min_run (fun _ => c) (fun _ => false) 3 2 =
         some (update_min c 3) ∧
       update_min c 3 = min c 3) ∧
     (∃ fuel r, update_max_run (fun _ => 5) (fun _ => false) 3 fuel = some r ∧
       5 ≤ r ∧ 3 ≤ r) ∧
     (∀ c, update_max_run (fun _ => c) (fun _ => false) 3 2 =
         some (update_max c 3) ∧
       update_max c 3 = max c 3)) :=
  ⟨fun _ => le_rfl, fun i => ⟨i, le_rfl, rfl⟩,
    C8_cas_loops_amended 3 (fun _ => 5) (fun _ => 5) (fun _ => false)
      (fun _ => le_rfl) (fun _ => le_rfl) (fun i => ⟨i, le_rfl, rfl⟩)⟩

end BVH
